import Mathlib

set_option autoImplicit false

/-!
Verification of the packaging script of the ARPG Stats System repository
(src/package_script.py) against its natural-language specification.

The script copies a fixed list of relative file paths from a workspace root
into two destination roots, preserving relative directory structure.  We give
a shallow embedding: filesystems are association lists from paths to nodes
(regular files with content, modification time and permission bits, or
directories), and each stateful Python operation becomes a Lean function.
Operations that can raise an exception return `Except Err`.

Modelling choices, all taken from the source and the documented semantics of
the Python standard library functions it calls:
* a path is an absolute-flag plus a list of components; `os.path.join r p`
  discards `r` when `p` is absolute, otherwise appends components;
* `os.path.exists` is true for any node (file or directory);
* `os.makedirs(d, exist_ok=True)` walks all prefixes of `d` from the root,
  skipping existing directories, creating missing ones, and failing when a
  prefix exists as a regular file;
* `shutil.copy2(src, dst)` first redirects `dst` to `dst/basename(src)` when
  `dst` is an existing directory, raises `SameFileError` when source and the
  (redirected) destination are the same existing path, raises when the source
  is a directory or missing or when the final destination is a directory, and
  otherwise writes the source's content, modification time and permissions at
  the destination (overwriting a regular file);
* printed output is modelled as an accumulating list of string lines, and an
  uncaught exception is an `Except.error` result (the process terminates
  abnormally, printing nothing further).
Path-to-string rendering (`pathStr`) abstracts the platform separator as "/".
-/

/-- A filesystem node: a regular file (byte content, modification time,
permission bits) or a directory. -/
inductive Node where
  | file (content : List Nat) (mtime : Nat) (perms : Nat)
  | dir
deriving DecidableEq

/-- A filesystem path: whether it is absolute, and its components. -/
structure FsPath where
  absolute : Bool
  components : List String
deriving DecidableEq

/-- A filesystem state: an association list from paths to nodes; the first
binding of a path is its current node. -/
abbrev FS : Type := List (FsPath × Node)

/-- Look up the node currently at a path. -/
def lookupFS : FS → FsPath → Option Node
  | [], _ => none
  | (q, n) :: rest, p => if p = q then some n else lookupFS rest p

/-- Write a node at a path (shadowing any previous binding). -/
def insertFS (fs : FS) (p : FsPath) (n : Node) : FS := (p, n) :: fs

/-- Embedding of os.path.join: an absolute second argument discards the root. -/
def joinPath (root : FsPath) (p : FsPath) : FsPath :=
  if p.absolute then p else ⟨root.absolute, root.components ++ p.components⟩

/-- Embedding of os.path.dirname: drop the last component. -/
def dirname (p : FsPath) : FsPath := ⟨p.absolute, p.components.dropLast⟩

/-- Embedding of os.path.basename: the last component. -/
def basename (p : FsPath) : String := p.components.getLastD ""

/-- Render a path as a string (separator abstracted as "/"). -/
def pathStr (p : FsPath) : String := String.intercalate "/" p.components

/-- The exceptions the modelled filesystem operations can raise. -/
inductive Err where
  | notADirectory (p : FsPath)
  | isADirectory (p : FsPath)
  | notFound (p : FsPath)
  | sameFile (p : FsPath)
deriving DecidableEq

/-- All prefixes of a path, shortest first (the directories os.makedirs must
traverse or create to realise the path). -/
def pathAncestors (p : FsPath) : List FsPath :=
  (List.range (p.components.length + 1)).map (fun k => ⟨p.absolute, p.components.take k⟩)

/-- One step of os.makedirs: skip an existing directory, fail on an existing
regular file, create a missing directory. -/
def mkdirOne (fs : FS) (q : FsPath) : Except Err FS :=
  match lookupFS fs q with
  | some Node.dir => Except.ok fs
  | some (Node.file _ _ _) => Except.error (Err.notADirectory q)
  | none => Except.ok (insertFS fs q Node.dir)

/-- Run mkdirOne over a list of paths, propagating the first failure. -/
def mkdirsList (fs : FS) : List FsPath → Except Err FS
  | [] => Except.ok fs
  | q :: rest =>
    match mkdirOne fs q with
    | Except.error e => Except.error e
    | Except.ok fs1 => mkdirsList fs1 rest

/-- Embedding of os.makedirs(p, exist_ok=True). -/
def makedirs (fs : FS) (p : FsPath) : Except Err FS := mkdirsList fs (pathAncestors p)

/-- The destination shutil.copy2 actually writes: dst itself, or redirected
into dst when dst is an existing directory. -/
def redirTgt (fs : FS) (src dst : FsPath) : FsPath :=
  if lookupFS fs dst = some Node.dir
  then ⟨dst.absolute, dst.components ++ [basename src]⟩ else dst

/-- Embedding of shutil.copy2 (copy with metadata). -/
def copy2 (fs : FS) (src dst : FsPath) : Except Err FS :=
  let dst1 := redirTgt fs src dst
  if src = dst1 ∧ (lookupFS fs src).isSome then Except.error (Err.sameFile src)
  else
    match lookupFS fs src with
    | some (Node.file c m pm) =>
      match lookupFS fs dst1 with
      | some Node.dir => Except.error (Err.isADirectory dst1)
      | _ => Except.ok (insertFS fs dst1 (Node.file c m pm))
    | some Node.dir => Except.error (Err.isADirectory src)
    | none => Except.error (Err.notFound src)

/-- The diagnostic line the script prints for a missing source file. -/
def notFoundLine (p : FsPath) : String := "File not found: " ++ pathStr p

/-- The body of the script's loop for one manifest entry: existence check,
then makedirs and copy2, or the diagnostic line. -/
def processOne (ws destination : FsPath) (st : FS × List String) (file : FsPath) :
    Except Err (FS × List String) :=
  let source_path := joinPath ws file
  let dest_path := joinPath destination file
  if (lookupFS st.1 source_path).isSome then
    match makedirs st.1 (dirname dest_path) with
    | Except.error e => Except.error e
    | Except.ok fs1 =>
      match copy2 fs1 source_path dest_path with
      | Except.error e => Except.error e
      | Except.ok fs2 => Except.ok (fs2, st.2)
  else
    Except.ok (st.1, st.2 ++ [notFoundLine source_path])

/-- The script's loop over a manifest, generic in the source root. -/
def copyFilesAux (ws destination : FsPath) : List FsPath → FS × List String → Except Err (FS × List String)
  | [], st => Except.ok st
  | f :: rest, st =>
    match processOne ws destination st f with
    | Except.error e => Except.error e
    | Except.ok st1 => copyFilesAux ws destination rest st1

/-- The constant workspace root of the script. -/
def workspace_path : FsPath := ⟨true, ["e:", "UnityProject", "ARPG Stats System"]⟩

/-- The constant essential destination root of the script. -/
def essential_package_path : FsPath := ⟨true, ["c:", "ARPG Stats System", "Essential"]⟩

/-- The constant bonus destination root of the script. -/
def bonus_package_path : FsPath := ⟨true, ["c:", "ARPG Stats System", "Bonus"]⟩

/-- The essential manifest of the script. -/
def essential_files : List FsPath :=
  [⟨false, ["Assets", "Scripts", "StatSystem", "Stats", "StatRegistry.cs"]⟩,
   ⟨false, ["Assets", "Scripts", "StatSystem", "Stats", "StatCollection.cs"]⟩,
   ⟨false, ["Assets", "Scripts", "StatSystem", "Stats", "StatModifier.cs"]⟩,
   ⟨false, ["Assets", "Scripts", "StatSystem", "Stats", "StatDefinition.cs"]⟩,
   ⟨false, ["Assets", "Scripts", "StatSystem", "Stats", "ConditionalStatDefinition.cs"]⟩,
   ⟨false, ["Assets", "Scripts", "StatSystem", "Stats", "StatValue.cs"]⟩,
   ⟨false, ["Assets", "Scripts", "StatSystem", "Stats", "TimedModifierDemo.cs"]⟩,
   ⟨false, ["Assets", "StatRegistry.asset"]⟩,
   ⟨false, ["Assets", "Scripts", "StatSystem", "Documentation", "IntegrationGuide.md"]⟩,
   ⟨false, ["Assets", "Scripts", "StatSystem", "Documentation", "CoreStats.md"]⟩,
   ⟨false, ["Assets", "Scripts", "StatSystem", "Documentation", "ItemEquipExample.md"]⟩]

/-- The bonus manifest of the script. -/
def bonus_files : List FsPath :=
  [⟨false, ["Assets", "Scripts", "StatSystem", "Tests", "ComprehensiveConditionalStatsTest.cs"]⟩,
   ⟨false, ["Assets", "Scripts", "StatSystem", "Tests", "AdvancedConditionalStatsTest.cs"]⟩,
   ⟨false, ["Assets", "Scripts", "StatSystem", "Items", "ItemSystemDemo.cs"]⟩,
   ⟨false, ["Assets", "Scripts", "StatSystem", "Items", "ItemFactory.cs"]⟩,
   ⟨false, ["Assets", "Scripts", "StatSystem", "Editor", "StatSystemSetupUtility.cs"]⟩,
   ⟨false, ["Assets", "Scripts", "StatSystem", "Editor", "StatRegistryEditor.cs"]⟩,
   ⟨false, ["Assets", "Scripts", "StatSystem", "Documentation", "ItemSystem.md"]⟩,
   ⟨false, ["Assets", "Scripts", "StatSystem", "Documentation", "ItemModifierDocumentation.md"]⟩]

/-- The source function copy_files_with_structure(file_list, destination); the
workspace root is the script's global constant. -/
def copy_files_with_structure (file_list : List FsPath) (destination : FsPath)
    (st : FS × List String) : Except Err (FS × List String) :=
  copyFilesAux workspace_path destination file_list st

/-- The final line the script prints (the Python literal's backslash-A escape
is not recognised and passes through verbatim). -/
def completionLine : String :=
  "Packaging complete. Essential and Bonus packages are ready at C:\\ARPG Stats System."

/-- The whole script: essential manifest, then bonus manifest, then the
completion line; an uncaught exception aborts the run. -/
def run_script (fs : FS) : Except Err (FS × List String) :=
  match copy_files_with_structure essential_files essential_package_path (fs, []) with
  | Except.error e => Except.error e
  | Except.ok st1 =>
    match copy_files_with_structure bonus_files bonus_package_path st1 with
    | Except.error e => Except.error e
    | Except.ok st2 => Except.ok (st2.1, st2.2 ++ [completionLine])

/-- Prefix order on paths: q is p itself or an ancestor of p. -/
def pathLe (q p : FsPath) : Prop :=
  q.absolute = p.absolute ∧ q.components <+: p.components

instance (q p : FsPath) : Decidable (pathLe q p) := by
  unfold pathLe; infer_instance

/-- The source path of a manifest entry. -/
def srcOf (ws p : FsPath) : FsPath := joinPath ws p

/-- The destination path of a manifest entry. -/
def dstOf (dest p : FsPath) : FsPath := joinPath dest p

/-- The path copy2 actually writes for an entry, given the filesystem it runs
on: the destination path, redirected into it when it is a directory. -/
def tgtOf (fs : FS) (ws dest p : FsPath) : FsPath :=
  redirTgt fs (srcOf ws p) (dstOf dest p)

/-- The directories makedirs traverses or creates for an entry. -/
def chainOf (dest p : FsPath) : List FsPath := pathAncestors (dirname (dstOf dest p))

/-- Whether the script's existence check succeeds for an entry. -/
def copiedB (fs : FS) (ws p : FsPath) : Bool := (lookupFS fs (srcOf ws p)).isSome

/-- Whether an optional node is a regular file. -/
def isFileN : Option Node → Bool
  | some (Node.file _ _ _) => true
  | _ => false

/-- The conditions under which processing one (existing) entry succeeds:
a regular file at the source, no regular file blocking the directory chain,
and no directory sitting at the write target. -/
def entryOK (fs : FS) (ws dest p : FsPath) : Prop :=
  isFileN (lookupFS fs (srcOf ws p)) = true ∧
  (∀ q ∈ chainOf dest p, isFileN (lookupFS fs q) = false) ∧
  lookupFS fs (tgtOf fs ws dest p) ≠ some Node.dir

instance (fs : FS) (ws dest p : FsPath) : Decidable (entryOK fs ws dest p) := by
  unfold entryOK; infer_instance

/-- All entries of a manifest that pass the existence check satisfy entryOK. -/
def OKC (fs : FS) (ws dest : FsPath) (l : List FsPath) : Prop :=
  ∀ p ∈ l, copiedB fs ws p = true → entryOK fs ws dest p

instance (fs : FS) (ws dest : FsPath) (l : List FsPath) : Decidable (OKC fs ws dest l) := by
  unfold OKC; infer_instance

/-- Order-independent description of the filesystem after a successful run:
write targets hold their source's node, missing chain directories are created,
everything else is untouched. -/
def finalAt (fs : FS) (ws dest : FsPath) (l : List FsPath) (q : FsPath) : Option Node :=
  match l.find? (fun p => copiedB fs ws p && decide (tgtOf fs ws dest p = q)) with
  | some p => lookupFS fs (srcOf ws p)
  | none =>
    if (l.any fun p => copiedB fs ws p && decide (q ∈ chainOf dest p)) = true
        ∧ lookupFS fs q = none
    then some Node.dir
    else lookupFS fs q

/-- The filesystem after successfully processing a single existing entry. -/
def stepState (fs : FS) (ws dest e : FsPath) (r : FsPath) : Option Node :=
  if r = tgtOf fs ws dest e then lookupFS fs (srcOf ws e)
  else if r ∈ chainOf dest e ∧ lookupFS fs r = none then some Node.dir
  else lookupFS fs r

/-- The diagnostic lines a run over a manifest appends. -/
def logsOf (fs : FS) (ws : FsPath) (l : List FsPath) : List String :=
  l.filterMap (fun p => if copiedB fs ws p then none else some (notFoundLine (srcOf ws p)))

/-- Well-formedness of a filesystem state: every strict ancestor of a bound
path is a directory (so nothing lives below a regular file or below nothing,
as on a real filesystem). -/
def WF (fs : FS) : Prop :=
  ∀ pr ∈ fs, ∀ q ∈ pathAncestors pr.1, q ≠ pr.1 → lookupFS fs q = some Node.dir

instance (fs : FS) : Decidable (WF fs) := by
  unfold WF; infer_instance

/-- Manifest entries that are genuine relative paths. -/
def goodEntries (l : List FsPath) : Prop :=
  ∀ p ∈ l, p.absolute = false ∧ p.components ≠ []

instance (l : List FsPath) : Decidable (goodEntries l) := by
  unfold goodEntries; infer_instance

/-- The source root and a destination root do not lie one below the other
(true of the script's constant roots). -/
def rootsApart (ws dest : FsPath) : Prop := ¬ pathLe ws dest ∧ ¬ pathLe dest ws

instance (ws dest : FsPath) : Decidable (rootsApart ws dest) := by
  unfold rootsApart; infer_instance

/-- Fixture: the source file of the small example filesystems. -/
def srcFileA : FsPath := ⟨true, ["e:", "UnityProject", "ARPG Stats System", "a.txt"]⟩

/-- Fixture: the relative manifest entry of the small example filesystems. -/
def entryA : FsPath := ⟨false, ["a.txt"]⟩

/-- Fixture: a well-formed filesystem holding just the workspace tree with one
regular file a.txt in it. -/
def fsSourceOnly : FS :=
  [(⟨true, []⟩, Node.dir), (⟨true, ["e:"]⟩, Node.dir),
   (⟨true, ["e:", "UnityProject"]⟩, Node.dir),
   (workspace_path, Node.dir), (srcFileA, Node.file [1] 5 6)]

/-- Fixture: the source tree plus a pre-existing directory at the essential
destination path of entryA. -/
def fsDirAtDest : FS :=
  (⟨true, ["c:"]⟩, Node.dir) :: (⟨true, ["c:", "ARPG Stats System"]⟩, Node.dir) ::
  (essential_package_path, Node.dir) ::
  (⟨true, ["c:", "ARPG Stats System", "Essential", "a.txt"]⟩, Node.dir) :: fsSourceOnly

/-- Fixture: a manifest entry that exists as a directory under the workspace. -/
def entryD : FsPath := ⟨false, ["d"]⟩

/-- Fixture: the source tree plus a directory at the workspace path of entryD. -/
def fsDirSource : FS :=
  (⟨true, ["e:", "UnityProject", "ARPG Stats System", "d"]⟩, Node.dir) :: fsSourceOnly

/-- Fixture: an absolute manifest entry. -/
def entryAbs : FsPath := ⟨true, ["q:", "f.txt"]⟩

/-- Fixture: a filesystem holding the absolute entry as a regular file. -/
def fsAbs : FS :=
  [(⟨true, []⟩, Node.dir), (⟨true, ["q:"]⟩, Node.dir), (entryAbs, Node.file [2] 3 4)]

/-- Fixture: a second relative entry for permutation and duplicate witnesses. -/
def entryB : FsPath := ⟨false, ["b.txt"]⟩

/-- Fixture: the source file matching entryB. -/
def srcFileB : FsPath := ⟨true, ["e:", "UnityProject", "ARPG Stats System", "b.txt"]⟩

/-- Fixture: the source tree with two regular files a.txt and b.txt. -/
def fsSourceAB : FS := (srcFileB, Node.file [9] 7 8) :: fsSourceOnly

theorem lookupFS_insert (fs : FS) (p : FsPath) (n : Node) (q : FsPath) :
    lookupFS (insertFS fs p n) q = if q = p then some n else lookupFS fs q := rfl

theorem lookupFS_isSome_mem (fs : FS) (p : FsPath) (h : (lookupFS fs p).isSome = true) :
    ∃ n, (p, n) ∈ fs := by
  induction fs with
  | nil => simp [lookupFS] at h
  | cons hd tl ih =>
    obtain ⟨q, n⟩ := hd
    by_cases hq : p = q
    · exact ⟨n, by simp [hq]⟩
    · simp only [lookupFS, if_neg hq] at h
      obtain ⟨n', hn⟩ := ih h
      exact ⟨n', List.mem_cons_of_mem _ hn⟩

theorem mem_lookupFS_isSome (fs : FS) (p : FsPath) (n : Node) (h : (p, n) ∈ fs) :
    (lookupFS fs p).isSome = true := by
  induction fs with
  | nil => simp at h
  | cons hd tl ih =>
    obtain ⟨q, n'⟩ := hd
    by_cases hq : p = q
    · simp [lookupFS, hq]
    · rcases List.mem_cons.mp h with h1 | h1
      · rw [Prod.mk.injEq] at h1
        exact absurd h1.1 hq
      · simp only [lookupFS, if_neg hq]
        exact ih h1

theorem pathLe_refl (p : FsPath) : pathLe p p := ⟨rfl, List.prefix_refl _⟩

theorem pathLe_trans {a b c : FsPath} (h1 : pathLe a b) (h2 : pathLe b c) : pathLe a c :=
  ⟨h1.1.trans h2.1, h1.2.trans h2.2⟩

theorem pathLe_antisymm {a b : FsPath} (h1 : pathLe a b) (h2 : pathLe b a) : a = b := by
  have hc : a.components = b.components :=
    h1.2.eq_of_length (le_antisymm h1.2.length_le h2.2.length_le)
  have ha := h1.1
  cases a; cases b
  simp_all

theorem pathLe_or_of_pathLe {a b c : FsPath} (h1 : pathLe a c) (h2 : pathLe b c) :
    pathLe a b ∨ pathLe b a := by
  have hab : a.absolute = b.absolute := h1.1.trans h2.1.symm
  rcases List.prefix_or_prefix_of_prefix h1.2 h2.2 with h | h
  · exact Or.inl ⟨hab, h⟩
  · exact Or.inr ⟨hab.symm, h⟩

theorem mem_pathAncestors {q p : FsPath} : q ∈ pathAncestors p ↔ pathLe q p := by
  unfold pathAncestors
  simp only [List.mem_map, List.mem_range]
  constructor
  · rintro ⟨k, hk, rfl⟩
    exact ⟨rfl, List.take_prefix k p.components⟩
  · rintro ⟨habs, hpre⟩
    have hq : q.components = p.components.take q.components.length :=
      List.prefix_iff_eq_take.mp hpre
    refine ⟨q.components.length, ?_, ?_⟩
    · have := hpre.length_le
      omega
    · cases q with
      | mk qa qc =>
        simp only [FsPath.mk.injEq]
        exact ⟨habs.symm, hq.symm⟩

theorem joinPath_rel {p : FsPath} (r : FsPath) (h : p.absolute = false) :
    joinPath r p = ⟨r.absolute, r.components ++ p.components⟩ := by
  unfold joinPath
  rw [h]
  simp

theorem pathLe_joinPath (r : FsPath) {p : FsPath} (h : p.absolute = false) :
    pathLe r (joinPath r p) := by
  rw [joinPath_rel r h]
  exact ⟨rfl, List.prefix_append _ _⟩

theorem joinPath_inj {r p p' : FsPath} (h : p.absolute = false) (h' : p'.absolute = false)
    (he : joinPath r p = joinPath r p') : p = p' := by
  rw [joinPath_rel r h, joinPath_rel r h'] at he
  have hcomp := congrArg FsPath.components he
  simp only [] at hcomp
  have hc := List.append_cancel_left hcomp
  cases p; cases p'
  simp_all

theorem dirname_joinPath {p : FsPath} (dest : FsPath) (h : p.absolute = false)
    (hne : p.components ≠ []) :
    dirname (joinPath dest p) = ⟨dest.absolute, dest.components ++ p.components.dropLast⟩ := by
  rw [joinPath_rel dest h]
  unfold dirname
  simp [List.dropLast_append_of_ne_nil _ hne]

theorem WF_spec {fs : FS} (hwf : WF fs) {q r : FsPath}
    (hr : (lookupFS fs r).isSome = true) (hle : pathLe q r) (hne : q ≠ r) :
    lookupFS fs q = some Node.dir := by
  obtain ⟨n, hn⟩ := lookupFS_isSome_mem fs r hr
  exact hwf (r, n) hn q (mem_pathAncestors.mpr hle) hne

theorem rootsApart_not_both {ws dest q : FsPath} (h : rootsApart ws dest)
    (h1 : pathLe ws q) (h2 : pathLe dest q) : False := by
  rcases pathLe_or_of_pathLe h1 h2 with hh | hh
  · exact h.1 hh
  · exact h.2 hh

theorem rootsApart_not_between {ws dest q : FsPath} (h : rootsApart ws dest)
    (h1 : pathLe ws q) (h2 : pathLe q dest) : False :=
  h.1 (pathLe_trans h1 h2)

theorem rootsApart_not_between2 {ws dest q : FsPath} (h : rootsApart ws dest)
    (h1 : pathLe dest q) (h2 : pathLe q ws) : False :=
  h.2 (pathLe_trans h1 h2)

theorem isFileN_false_iff (o : Option Node) :
    isFileN o = false ↔ o = none ∨ o = some Node.dir := by
  cases o with
  | none => simp [isFileN]
  | some n => cases n <;> simp [isFileN]

theorem isFileN_true_iff (o : Option Node) :
    isFileN o = true ↔ ∃ c m pm, o = some (Node.file c m pm) := by
  cases o with
  | none => simp [isFileN]
  | some n => cases n <;> simp [isFileN]

theorem pathLe_redirTgt (fs : FS) (src dst : FsPath) : pathLe dst (redirTgt fs src dst) := by
  unfold redirTgt
  by_cases hd : lookupFS fs dst = some Node.dir
  · rw [if_pos hd]
    exact ⟨rfl, List.prefix_append _ _⟩
  · rw [if_neg hd]
    exact pathLe_refl _

theorem mkdirsList_ok (L : List FsPath) (fs : FS)
    (h : ∀ q ∈ L, isFileN (lookupFS fs q) = false) :
    ∃ fs1, mkdirsList fs L = Except.ok fs1 ∧
      ∀ r, lookupFS fs1 r =
        if r ∈ L ∧ lookupFS fs r = none then some Node.dir else lookupFS fs r := by
  induction L generalizing fs with
  | nil =>
    refine ⟨fs, rfl, ?_⟩
    intro r
    simp
  | cons a L ih =>
    have ha := h a (List.mem_cons_self a L)
    rcases (isFileN_false_iff _).mp ha with hnone | hdir
    · have hstep : mkdirOne fs a = Except.ok (insertFS fs a Node.dir) := by
        unfold mkdirOne
        rw [hnone]
    
      have hL : ∀ q ∈ L, isFileN (lookupFS (insertFS fs a Node.dir) q) = false := by
        intro q hq
        rw [lookupFS_insert]
        by_cases hqa : q = a
        · simp [hqa, isFileN]
        · rw [if_neg hqa]
          exact h q (List.mem_cons_of_mem _ hq)
      obtain ⟨fs1, h1, h2⟩ := ih (insertFS fs a Node.dir) hL
      refine ⟨fs1, ?_, ?_⟩
      · show mkdirsList fs (a :: L) = Except.ok fs1
        unfold mkdirsList
        rw [hstep]
        exact h1
      · intro r
        rw [h2 r, lookupFS_insert]
        by_cases hra : r = a
        · subst hra
          simp [hnone]
        · simp only [if_neg hra, List.mem_cons]
          by_cases hrl : r ∈ L ∧ lookupFS fs r = none
          · rw [if_pos hrl, if_pos ⟨Or.inr hrl.1, hrl.2⟩]
          · rw [if_neg hrl, if_neg ?_]
            rintro ⟨hor, hn⟩
            rcases hor with h' | h'
            · exact hra h'
            · exact hrl ⟨h', hn⟩
    · have hstep : mkdirOne fs a = Except.ok fs := by
        unfold mkdirOne
        rw [hdir]
      obtain ⟨fs1, h1, h2⟩ := ih fs (fun q hq => h q (List.mem_cons_of_mem _ hq))
      refine ⟨fs1, ?_, ?_⟩
      · show mkdirsList fs (a :: L) = Except.ok fs1
        unfold mkdirsList
        rw [hstep]
        exact h1
      · intro r
        rw [h2 r]
        by_cases hra : r = a
        · subst hra
          simp [hdir]
        · simp only [List.mem_cons]
          by_cases hrl : r ∈ L ∧ lookupFS fs r = none
          · rw [if_pos hrl, if_pos ⟨Or.inr hrl.1, hrl.2⟩]
          · rw [if_neg hrl, if_neg ?_]
            rintro ⟨hor, hn⟩
            rcases hor with h' | h'
            · exact hra h'
            · exact hrl ⟨h', hn⟩

theorem mkdirsList_ok_inv (L : List FsPath) (fs fs1 : FS)
    (h : mkdirsList fs L = Except.ok fs1) :
    ∀ q ∈ L, isFileN (lookupFS fs q) = false := by
  induction L generalizing fs with
  | nil =>
    intro q hq
    simp at hq
  | cons a L ih =>
    intro q hq
    unfold mkdirsList at h
    cases hm : mkdirOne fs a with
    | error e =>
      rw [hm] at h
      exact absurd h (by simp)
    | ok fsa =>
      rw [hm] at h
      have hafile : isFileN (lookupFS fs a) = false ∧
          (fsa = fs ∨ (lookupFS fs a = none ∧ fsa = insertFS fs a Node.dir)) := by
        unfold mkdirOne at hm
        cases hl : lookupFS fs a with
        | none =>
          rw [hl] at hm
          simp only [Except.ok.injEq] at hm
          exact ⟨by simp [isFileN], Or.inr ⟨rfl, hm.symm⟩⟩
        | some n =>
          cases n with
          | dir =>
            rw [hl] at hm
            simp only [Except.ok.injEq] at hm
            exact ⟨by simp [isFileN], Or.inl hm.symm⟩
          | file c m pm =>
            rw [hl] at hm
            exact absurd hm (by simp)
      rcases List.mem_cons.mp hq with rfl | hq2
      · exact hafile.1
      · have hfa := ih fsa h q hq2
        rcases hafile.2 with rfl | ⟨hnone, heq⟩
        · exact hfa
        · rw [heq, lookupFS_insert] at hfa
          by_cases hqa : q = a
          · subst hqa
            rw [hnone]
            simp [isFileN]
          · rw [if_neg hqa] at hfa
            exact hfa

theorem copy2_ok (fs : FS) (src dst : FsPath) (c : List Nat) (m pm : Nat)
    (h2 : lookupFS fs src = some (Node.file c m pm))
    (h3 : src ≠ redirTgt fs src dst)
    (h4 : lookupFS fs (redirTgt fs src dst) ≠ some Node.dir) :
    copy2 fs src dst = Except.ok (insertFS fs (redirTgt fs src dst) (Node.file c m pm)) := by
  unfold copy2
  rw [if_neg (fun hh => h3 hh.1)]
  rw [h2]
  cases hl : lookupFS fs (redirTgt fs src dst) with
  | none => rfl
  | some n =>
    cases n with
    | dir => exact absurd hl h4
    | file c' m' pm' => rfl

theorem copy2_ok_inv (fs : FS) (src dst : FsPath) (fs2 : FS)
    (h : copy2 fs src dst = Except.ok fs2) :
    ∃ c m pm, lookupFS fs src = some (Node.file c m pm) ∧
      src ≠ redirTgt fs src dst ∧
      lookupFS fs (redirTgt fs src dst) ≠ some Node.dir ∧
      fs2 = insertFS fs (redirTgt fs src dst) (Node.file c m pm) := by
  unfold copy2 at h
  by_cases hsame : src = redirTgt fs src dst ∧ (lookupFS fs src).isSome = true
  · rw [if_pos hsame] at h
    exact absurd h (by simp)
  · rw [if_neg hsame] at h
    cases hl : lookupFS fs src with
    | none =>
      rw [hl] at h
      exact absurd h (by simp)
    | some n =>
      cases n with
      | dir =>
        rw [hl] at h
        exact absurd h (by simp)
      | file c m pm =>
        rw [hl] at h
        have hne : src ≠ redirTgt fs src dst := by
          intro he
          exact hsame ⟨he, by rw [hl]; rfl⟩
        cases hd : lookupFS fs (redirTgt fs src dst) with
        | none =>
          rw [hd] at h
          simp only [Except.ok.injEq] at h
          exact ⟨c, m, pm, rfl, hne, by simp, h.symm⟩
        | some n' =>
          cases n' with
          | dir =>
            rw [hd] at h
            exact absurd h (by simp)
          | file c' m' pm' =>
            rw [hd] at h
            simp only [Except.ok.injEq] at h
            exact ⟨c, m, pm, rfl, hne, by simp, h.symm⟩

theorem dirname_pathLe (p : FsPath) : pathLe (dirname p) p := by
  unfold dirname
  refine ⟨rfl, ?_⟩
  rw [List.dropLast_eq_take]
  exact List.take_prefix _ _

theorem pathLe_dirname_strict {p : FsPath} (h : p.components ≠ []) :
    (dirname p).components.length < p.components.length := by
  have hpos : 0 < p.components.length := List.length_pos.mpr h
  simp only [dirname, List.length_dropLast]
  omega

theorem prefix_dropLast_of_proper {l1 l2 : List String} (h : l1 <+: l2) (hne : l1 ≠ l2) :
    l1 <+: l2.dropLast := by
  have hk : l1 = l2.take l1.length := List.prefix_iff_eq_take.mp h
  have hlt : l1.length < l2.length :=
    lt_of_le_of_ne h.length_le (fun he => hne (h.eq_of_length he))
  rw [List.dropLast_eq_take, List.prefix_iff_eq_take, List.take_take]
  rw [min_eq_left (by omega)]
  exact hk

theorem pathLt_dirname {q p : FsPath} (hle : pathLe q p) (hne : q ≠ p) :
    pathLe q (dirname p) := by
  refine ⟨hle.1, ?_⟩
  apply prefix_dropLast_of_proper hle.2
  intro hc
  apply hne
  cases q; cases p
  simp_all [pathLe]

theorem mem_chainOf_iff {q dest p : FsPath} :
    q ∈ chainOf dest p ↔ pathLe q (dirname (dstOf dest p)) := mem_pathAncestors

theorem chain_comparable_dest {q dest : FsPath} {p : FsPath} (hp : p.absolute = false)
    (hq : q ∈ chainOf dest p) : pathLe q dest ∨ pathLe dest q := by
  have h1 : pathLe q (dirname (dstOf dest p)) := mem_chainOf_iff.mp hq
  have h3 : pathLe q (dstOf dest p) := pathLe_trans h1 (dirname_pathLe _)
  exact pathLe_or_of_pathLe h3 (pathLe_joinPath dest hp)

theorem src_not_tgt {fs : FS} {ws dest : FsPath} (hr : rootsApart ws dest) {p e : FsPath}
    (hp : p.absolute = false) (he : e.absolute = false) :
    srcOf ws p ≠ tgtOf fs ws dest e := by
  intro h
  have h1 : pathLe ws (srcOf ws p) := pathLe_joinPath ws hp
  have h2 : pathLe dest (tgtOf fs ws dest e) :=
    pathLe_trans (pathLe_joinPath dest he) (pathLe_redirTgt fs _ _)
  rw [h] at h1
  exact rootsApart_not_both hr h1 h2

theorem src_not_in_chain {ws dest : FsPath} (hr : rootsApart ws dest) {p e : FsPath}
    (hp : p.absolute = false) (he : e.absolute = false) :
    srcOf ws p ∉ chainOf dest e := by
  intro h
  have h1 : pathLe ws (srcOf ws p) := pathLe_joinPath ws hp
  rcases chain_comparable_dest he h with h2 | h2
  · exact rootsApart_not_between hr h1 h2
  · exact rootsApart_not_both hr h1 h2

theorem not_mem_chain_of_dst_le {dest e r : FsPath} (hne : e.components ≠ [])
    (he : e.absolute = false) (hler : pathLe (dstOf dest e) r) : r ∉ chainOf dest e := by
  intro h
  have h1 : pathLe r (dirname (dstOf dest e)) := mem_chainOf_iff.mp h
  have h2 := h1.2.length_le
  have h3 := hler.2.length_le
  have h5 : (dirname (dstOf dest e)).components.length < (dstOf dest e).components.length := by
    apply pathLe_dirname_strict
    rw [dstOf, joinPath_rel dest he]
    simp [hne]
  omega

theorem stepState_src {fs : FS} {ws dest : FsPath} (hr : rootsApart ws dest) {p e : FsPath}
    (hp : p.absolute = false) (he : e.absolute = false) :
    stepState fs ws dest e (srcOf ws p) = lookupFS fs (srcOf ws p) := by
  unfold stepState
  rw [if_neg (src_not_tgt hr hp he), if_neg (fun hh => src_not_in_chain hr hp he hh.1)]

theorem dirname_concat (dp : FsPath) (b : String) :
    dirname ⟨dp.absolute, dp.components ++ [b]⟩ = dp := by
  unfold dirname
  cases dp
  simp

theorem tgtOf_cases (fs : FS) (ws dest p : FsPath) :
    (lookupFS fs (dstOf dest p) = some Node.dir ∧
      tgtOf fs ws dest p =
        ⟨(dstOf dest p).absolute, (dstOf dest p).components ++ [basename (srcOf ws p)]⟩) ∨
    (lookupFS fs (dstOf dest p) ≠ some Node.dir ∧ tgtOf fs ws dest p = dstOf dest p) := by
  unfold tgtOf redirTgt
  by_cases hd : lookupFS fs (dstOf dest p) = some Node.dir
  · exact Or.inl ⟨hd, by rw [if_pos hd]⟩
  · exact Or.inr ⟨hd, by rw [if_neg hd]⟩

theorem redirTgt_congr {fs fs1 : FS} {src dst : FsPath}
    (h : lookupFS fs1 dst = lookupFS fs dst) :
    redirTgt fs1 src dst = redirTgt fs src dst := by
  unfold redirTgt
  rw [h]

theorem pathLe_dst_tgtOf (fs : FS) (ws dest e : FsPath) :
    pathLe (dstOf dest e) (tgtOf fs ws dest e) := by
  unfold tgtOf
  exact pathLe_redirTgt fs _ _

theorem processOne_skip {ws dest : FsPath} {fs : FS} (log : List String) {e : FsPath}
    (hcop : copiedB fs ws e = false) :
    processOne ws dest (fs, log) e = Except.ok (fs, log ++ [notFoundLine (srcOf ws e)]) := by
  have hcop' : (lookupFS fs (joinPath ws e)).isSome = false := hcop
  simp [processOne, hcop']
  rfl

theorem processOne_ok_copied {ws dest : FsPath} {fs : FS} (log : List String) {e : FsPath}
    (he : e.absolute = false) (hne : e.components ≠ []) (hr : rootsApart ws dest)
    (hcop : copiedB fs ws e = true) (hok : entryOK fs ws dest e) :
    ∃ fs2, processOne ws dest (fs, log) e = Except.ok (fs2, log) ∧
      ∀ r, lookupFS fs2 r = stepState fs ws dest e r := by
  obtain ⟨c, m, pm, hsp⟩ := (isFileN_true_iff _).mp hok.1
  obtain ⟨fs1, h1, hchar1⟩ := mkdirsList_ok (chainOf dest e) fs hok.2.1
  have hsp1 : lookupFS fs1 (srcOf ws e) = lookupFS fs (srcOf ws e) := by
    rw [hchar1]
    rw [if_neg (fun hh => src_not_in_chain hr he he hh.1)]
  have hdp1 : lookupFS fs1 (dstOf dest e) = lookupFS fs (dstOf dest e) := by
    rw [hchar1]
    rw [if_neg (fun hh => not_mem_chain_of_dst_le hne he (pathLe_refl _) hh.1)]
  have htgteq : redirTgt fs1 (srcOf ws e) (dstOf dest e) = tgtOf fs ws dest e := by
    unfold tgtOf
    exact redirTgt_congr hdp1
  have htgt1 : lookupFS fs1 (tgtOf fs ws dest e) = lookupFS fs (tgtOf fs ws dest e) := by
    rw [hchar1]
    rw [if_neg (fun hh => not_mem_chain_of_dst_le hne he (pathLe_dst_tgtOf fs ws dest e) hh.1)]
  have hcp : copy2 fs1 (srcOf ws e) (dstOf dest e) =
      Except.ok (insertFS fs1 (tgtOf fs ws dest e) (Node.file c m pm)) := by
    have hmain := copy2_ok fs1 (srcOf ws e) (dstOf dest e) c m pm
      (by rw [hsp1, hsp]) (by rw [htgteq]; exact src_not_tgt hr he he)
      (by rw [htgteq, htgt1]; exact hok.2.2)
    rw [htgteq] at hmain
    exact hmain
  have hcop' : (lookupFS fs (joinPath ws e)).isSome = true := hcop
  have hmk : makedirs fs (dirname (joinPath dest e)) = Except.ok fs1 := h1
  refine ⟨insertFS fs1 (tgtOf fs ws dest e) (Node.file c m pm), ?_, ?_⟩
  · have hcp' : copy2 fs1 (joinPath ws e) (joinPath dest e) =
        Except.ok (insertFS fs1 (tgtOf fs ws dest e) (Node.file c m pm)) := hcp
    simp [processOne, hcop', hmk, hcp']
  · intro r
    rw [lookupFS_insert]
    unfold stepState
    by_cases hrt : r = tgtOf fs ws dest e
    · rw [if_pos hrt, if_pos hrt, hsp]
    · rw [if_neg hrt, if_neg hrt, hchar1 r]

theorem processOne_ok_inv {ws dest : FsPath} {fs fs' : FS} {log log' : List String} {e : FsPath}
    (he : e.absolute = false) (hne : e.components ≠ []) (hr : rootsApart ws dest)
    (h : processOne ws dest (fs, log) e = Except.ok (fs', log')) :
    (copiedB fs ws e = false ∧ fs' = fs ∧ log' = log ++ [notFoundLine (srcOf ws e)]) ∨
    (copiedB fs ws e = true ∧ entryOK fs ws dest e ∧ log' = log ∧
      ∀ r, lookupFS fs' r = stepState fs ws dest e r) := by
  cases hcop : copiedB fs ws e with
  | false =>
    left
    rw [processOne_skip log hcop] at h
    simp only [Except.ok.injEq, Prod.mk.injEq] at h
    exact ⟨rfl, h.1.symm, h.2.symm⟩
  | true =>
    right
    have hcop' : (lookupFS fs (joinPath ws e)).isSome = true := hcop
    unfold processOne at h
    simp only [hcop', if_true] at h
    cases hmk : makedirs fs (dirname (joinPath dest e)) with
    | error err =>
      rw [hmk] at h
      simp at h
    | ok fs1 =>
      rw [hmk] at h
      simp only [] at h
      cases hcp : copy2 fs1 (joinPath ws e) (joinPath dest e) with
      | error err =>
        rw [hcp] at h
        simp at h
      | ok fs2 =>
        rw [hcp] at h
        simp only [Except.ok.injEq, Prod.mk.injEq] at h
        have hchain : ∀ q ∈ chainOf dest e, isFileN (lookupFS fs q) = false :=
          mkdirsList_ok_inv (chainOf dest e) fs fs1 hmk
        obtain ⟨fs1', heq1, hchar1⟩ := mkdirsList_ok (chainOf dest e) fs hchain
        have hfs1 : fs1' = fs1 := by
          have h2 : (Except.ok fs1' : Except Err FS) = Except.ok fs1 := heq1.symm.trans hmk
          simpa using h2
        subst hfs1
        have hsp1 : lookupFS fs1' (srcOf ws e) = lookupFS fs (srcOf ws e) := by
          rw [hchar1]
          rw [if_neg (fun hh => src_not_in_chain hr he he hh.1)]
        have hdp1 : lookupFS fs1' (dstOf dest e) = lookupFS fs (dstOf dest e) := by
          rw [hchar1]
          rw [if_neg (fun hh => not_mem_chain_of_dst_le hne he (pathLe_refl _) hh.1)]
        have htgteq : redirTgt fs1' (srcOf ws e) (dstOf dest e) = tgtOf fs ws dest e := by
          unfold tgtOf
          exact redirTgt_congr hdp1
        have htgt1 : lookupFS fs1' (tgtOf fs ws dest e) = lookupFS fs (tgtOf fs ws dest e) := by
          rw [hchar1]
          rw [if_neg (fun hh => not_mem_chain_of_dst_le hne he (pathLe_dst_tgtOf fs ws dest e) hh.1)]
        obtain ⟨c, m, pm, hspf1, hnetgt, hnd1, heqfs2⟩ :=
          copy2_ok_inv fs1' (joinPath ws e) (joinPath dest e) fs2 hcp
        have hsp0 : lookupFS fs (srcOf ws e) = some (Node.file c m pm) := by
          rw [← hsp1]
          exact hspf1
        refine ⟨rfl, ⟨?_, hchain, ?_⟩, h.2.symm, ?_⟩
        · rw [hsp0]
          simp [isFileN]
        · rw [← htgt1, ← htgteq]
          exact hnd1
        · intro r
          rw [← h.1, heqfs2]
          have : redirTgt fs1' (joinPath ws e) (joinPath dest e) = tgtOf fs ws dest e := htgteq
          rw [this, lookupFS_insert]
          unfold stepState
          by_cases hrt : r = tgtOf fs ws dest e
          · rw [if_pos hrt, if_pos hrt, hsp0]
          · rw [if_neg hrt, if_neg hrt, hchar1 r]

theorem WF_of_spec {fs : FS}
    (h : ∀ q r, (lookupFS fs r).isSome = true → pathLe q r → q ≠ r →
      lookupFS fs q = some Node.dir) :
    WF fs := by
  intro pr hpr q hq hne
  exact h q pr.1 (mem_lookupFS_isSome fs pr.1 pr.2 hpr) (mem_pathAncestors.mp hq) hne

theorem isSome_of_isFileN {o : Option Node} (h : isFileN o = true) : o.isSome = true := by
  obtain ⟨c, m, pm, rfl⟩ := (isFileN_true_iff o).mp h
  rfl

theorem chain_dir_after {fs fs' : FS} {ws dest e : FsPath}
    (he : e.absolute = false) (hne : e.components ≠ [])
    (hok2 : ∀ q ∈ chainOf dest e, isFileN (lookupFS fs q) = false)
    (hfs' : ∀ r, lookupFS fs' r = stepState fs ws dest e r) :
    ∀ q ∈ chainOf dest e, lookupFS fs' q = some Node.dir := by
  intro q hq
  have hqT : q ≠ tgtOf fs ws dest e := by
    intro heq
    exact not_mem_chain_of_dst_le hne he (pathLe_dst_tgtOf fs ws dest e) (heq ▸ hq)
  rw [hfs' q]
  unfold stepState
  rw [if_neg hqT]
  rcases (isFileN_false_iff _).mp (hok2 q hq) with hn | hd
  · rw [if_pos ⟨hq, hn⟩]
  · rw [if_neg (fun hh => by rw [hd] at hh; exact absurd hh.2 (by simp))]
    exact hd

theorem below_tgt_dir {fs fs' : FS} {ws dest e : FsPath}
    (he : e.absolute = false) (hne : e.components ≠ [])
    (hok : entryOK fs ws dest e)
    (hfs' : ∀ r, lookupFS fs' r = stepState fs ws dest e r) :
    ∀ q, pathLe q (tgtOf fs ws dest e) → q ≠ tgtOf fs ws dest e →
      lookupFS fs' q = some Node.dir := by
  intro q hq hqne
  have hchain : ∀ r ∈ chainOf dest e, lookupFS fs' r = some Node.dir :=
    chain_dir_after he hne hok.2.1 hfs'
  rcases tgtOf_cases fs ws dest e with ⟨hdir, hTeq⟩ | ⟨hnd, hTeq⟩
  · have hqdp : pathLe q (dstOf dest e) := by
      have hstep := pathLt_dirname hq hqne
      rw [hTeq, dirname_concat (dstOf dest e) (basename (srcOf ws e))] at hstep
      exact hstep
    by_cases hqdp2 : q = dstOf dest e
    · have h2 : q ∉ chainOf dest e := by
        rw [hqdp2]
        exact not_mem_chain_of_dst_le hne he (pathLe_refl _)
      rw [hfs' q]
      unfold stepState
      rw [if_neg hqne, if_neg (fun hh => h2 hh.1)]
      rw [hqdp2]
      exact hdir
    · have hq3 : pathLe q (dirname (dstOf dest e)) := pathLt_dirname hqdp hqdp2
      exact hchain q (mem_chainOf_iff.mpr hq3)
  · have hq3 : pathLe q (dirname (dstOf dest e)) := by
      apply pathLt_dirname
      · rw [← hTeq]
        exact hq
      · rw [← hTeq]
        exact hqne
    exact hchain q (mem_chainOf_iff.mpr hq3)

theorem WF_step {fs fs' : FS} {ws dest e : FsPath}
    (hwf : WF fs) (he : e.absolute = false) (hne : e.components ≠ [])
    (hok : entryOK fs ws dest e)
    (hfs' : ∀ r, lookupFS fs' r = stepState fs ws dest e r) : WF fs' := by
  apply WF_of_spec
  intro q r hrS hle hqr
  rw [hfs' r] at hrS
  unfold stepState at hrS
  by_cases hrT : r = tgtOf fs ws dest e
  · subst hrT
    exact below_tgt_dir he hne hok hfs' q hle hqr
  · rw [if_neg hrT] at hrS
    by_cases hrc : r ∈ chainOf dest e ∧ lookupFS fs r = none
    · have hr1 : pathLe r (dirname (dstOf dest e)) := mem_chainOf_iff.mp hrc.1
      have hq1 : pathLe q (dirname (dstOf dest e)) := pathLe_trans hle hr1
      exact chain_dir_after he hne hok.2.1 hfs' q (mem_chainOf_iff.mpr hq1)
    · rw [if_neg hrc] at hrS
      have hfq : lookupFS fs q = some Node.dir := WF_spec hwf hrS hle hqr
      rw [hfs' q]
      unfold stepState
      have hqT : q ≠ tgtOf fs ws dest e := by
        intro heq
        have hocc := hok.2.2
        rw [← heq] at hocc
        exact hocc hfq
      rw [if_neg hqT]
      rw [if_neg (fun hh => by rw [hfq] at hh; exact absurd hh.2 (by simp))]
      exact hfq

theorem src_files_incomparable {fs : FS} {ws : FsPath} (hwf : WF fs) {p p' : FsPath}
    (hp : p.absolute = false) (hp' : p'.absolute = false)
    (hfp : isFileN (lookupFS fs (srcOf ws p)) = true)
    (hfp' : (lookupFS fs (srcOf ws p')).isSome = true)
    (hlt : p.components <+: p'.components) (hne : p ≠ p') : False := by
  have h1 : pathLe (srcOf ws p) (srcOf ws p') := by
    unfold srcOf
    rw [joinPath_rel ws hp, joinPath_rel ws hp']
    exact ⟨rfl, (List.prefix_append_right_inj ws.components).mpr hlt⟩
  have h2 : srcOf ws p ≠ srcOf ws p' := by
    intro he
    exact hne (joinPath_inj hp hp' he)
  have h3 := WF_spec hwf hfp' h1 h2
  rw [h3] at hfp
  simp [isFileN] at hfp

theorem dstOf_components (dest : FsPath) {p : FsPath} (hp : p.absolute = false) :
    (dstOf dest p).components = dest.components ++ p.components := by
  unfold dstOf
  rw [joinPath_rel dest hp]

theorem dst_extension_not_in_chain {fs : FS} {ws dest : FsPath} (hwf : WF fs) {p p' r : FsPath}
    (hp : p.absolute = false) (hnep : p.components ≠ [])
    (hp' : p'.absolute = false) (hnep' : p'.components ≠ [])
    (hf : isFileN (lookupFS fs (srcOf ws p)) = true)
    (hf' : isFileN (lookupFS fs (srcOf ws p')) = true)
    (hler : pathLe (dstOf dest p) r) (hmem : r ∈ chainOf dest p') : False := by
  have h1 : pathLe r (dirname (dstOf dest p')) := mem_chainOf_iff.mp hmem
  have h3 : pathLe (dstOf dest p) (dirname (dstOf dest p')) := pathLe_trans hler h1
  have e2 : (dirname (dstOf dest p')).components = dest.components ++ p'.components.dropLast := by
    unfold dstOf
    rw [dirname_joinPath dest hp' hnep']
  have h4 : dest.components ++ p.components <+: dest.components ++ p'.components.dropLast := by
    have := h3.2
    rw [dstOf_components dest hp, e2] at this
    exact this
  have hcomp : p.components <+: p'.components.dropLast :=
    (List.prefix_append_right_inj dest.components).mp h4
  have hdl : p'.components.dropLast <+: p'.components := by
    rw [List.dropLast_eq_take]
    exact List.take_prefix _ _
  have hlt : p.components <+: p'.components := hcomp.trans hdl
  have hlen1 := hcomp.length_le
  have hlen2 : p'.components.dropLast.length = p'.components.length - 1 :=
    List.length_dropLast _
  have hpos : 0 < p'.components.length := List.length_pos.mpr hnep'
  have hnepp : p ≠ p' := by
    intro he
    rw [he] at hlen1
    omega
  exact src_files_incomparable hwf hp hp' hf (isSome_of_isFileN hf') hlt hnepp

theorem tgt_not_in_chain {fs : FS} {ws dest : FsPath} (hwf : WF fs) {p p' : FsPath}
    (hp : p.absolute = false) (hnep : p.components ≠ [])
    (hp' : p'.absolute = false) (hnep' : p'.components ≠ [])
    (hf : isFileN (lookupFS fs (srcOf ws p)) = true)
    (hf' : isFileN (lookupFS fs (srcOf ws p')) = true)
    (hmem : tgtOf fs ws dest p ∈ chainOf dest p') : False :=
  dst_extension_not_in_chain hwf hp hnep hp' hnep' hf hf'
    (pathLe_dst_tgtOf fs ws dest p) hmem

theorem mk_components (a : Bool) (c : List String) : (⟨a, c⟩ : FsPath).components = c := rfl

theorem fspath_eq_of {p p' : FsPath} (h1 : p.absolute = p'.absolute)
    (h2 : p.components = p'.components) : p = p' := by
  cases p
  cases p'
  simp_all

theorem tgt_inj {fs : FS} {ws dest : FsPath} (hwf : WF fs) {p p' : FsPath}
    (hp : p.absolute = false) (hnep : p.components ≠ [])
    (hp' : p'.absolute = false) (hnep' : p'.components ≠ [])
    (hf : isFileN (lookupFS fs (srcOf ws p)) = true)
    (hf' : isFileN (lookupFS fs (srcOf ws p')) = true)
    (he : tgtOf fs ws dest p = tgtOf fs ws dest p') : p = p' := by
  by_contra hne
  have hcompe := congrArg FsPath.components he
  rcases tgtOf_cases fs ws dest p with ⟨hd, hT⟩ | ⟨hd, hT⟩ <;>
    rcases tgtOf_cases fs ws dest p' with ⟨hd', hT'⟩ | ⟨hd', hT'⟩
  · rw [hT, hT'] at hcompe
    simp only [mk_components, dstOf_components dest hp, dstOf_components dest hp'] at hcompe
    have hlen : p.components.length = p'.components.length := by
      have hl := congrArg List.length hcompe
      simp at hl
      omega
    have hparts := (List.append_inj hcompe (by simp [hlen])).1
    have hPP : p.components = p'.components := List.append_cancel_left hparts
    exact hne (fspath_eq_of (hp.trans hp'.symm) hPP)
  · rw [hT, hT'] at hcompe
    simp only [mk_components, dstOf_components dest hp, dstOf_components dest hp'] at hcompe
    rw [List.append_assoc] at hcompe
    have hPP := List.append_cancel_left hcompe
    have hlt : p.components <+: p'.components := by
      rw [← hPP]
      exact List.prefix_append _ _
    exact src_files_incomparable hwf hp hp' hf (isSome_of_isFileN hf') hlt hne
  · rw [hT, hT'] at hcompe
    simp only [mk_components, dstOf_components dest hp, dstOf_components dest hp'] at hcompe
    rw [List.append_assoc] at hcompe
    have hPP := List.append_cancel_left hcompe
    have hlt : p'.components <+: p.components := by
      rw [hPP]
      exact List.prefix_append _ _
    exact src_files_incomparable hwf hp' hp hf' (isSome_of_isFileN hf) hlt
      (fun hh => hne hh.symm)
  · rw [hT, hT'] at hcompe
    simp only [dstOf_components dest hp, dstOf_components dest hp'] at hcompe
    have hPP : p.components = p'.components := List.append_cancel_left hcompe
    exact hne (fspath_eq_of (hp.trans hp'.symm) hPP)

theorem step_src_stable {fs fs' : FS} {ws dest e : FsPath} (hr : rootsApart ws dest)
    {p : FsPath} (hp : p.absolute = false) (he : e.absolute = false)
    (hfs' : ∀ r, lookupFS fs' r = stepState fs ws dest e r) :
    lookupFS fs' (srcOf ws p) = lookupFS fs (srcOf ws p) := by
  rw [hfs' _]
  exact stepState_src hr hp he

theorem redirTgt_congr_dir {fs fs1 : FS} {src dst : FsPath}
    (h : (lookupFS fs1 dst = some Node.dir) ↔ (lookupFS fs dst = some Node.dir)) :
    redirTgt fs1 src dst = redirTgt fs src dst := by
  unfold redirTgt
  by_cases hd : lookupFS fs dst = some Node.dir
  · rw [if_pos hd, if_pos (h.mpr hd)]
  · rw [if_neg hd, if_neg (fun hh => hd (h.mp hh))]

theorem step_tgt_stable {fs fs' : FS} {ws dest e p : FsPath}
    (hwf : WF fs) (hr : rootsApart ws dest)
    (he : e.absolute = false) (hnee : e.components ≠ [])
    (hp : p.absolute = false) (hnep : p.components ≠ [])
    (hokE : entryOK fs ws dest e)
    (hfP : isFileN (lookupFS fs (srcOf ws p)) = true)
    (hfs' : ∀ r, lookupFS fs' r = stepState fs ws dest e r) :
    tgtOf fs' ws dest p = tgtOf fs ws dest p := by
  unfold tgtOf
  apply redirTgt_congr_dir
  rw [hfs' _]
  unfold stepState
  by_cases h1 : dstOf dest p = tgtOf fs ws dest e
  · rw [if_pos h1]
    obtain ⟨c, m, pm, hE⟩ := (isFileN_true_iff _).mp hokE.1
    rw [hE]
    constructor
    · intro hh
      exact absurd hh (by simp)
    · intro hh
      rw [h1] at hh
      exact absurd hh hokE.2.2
  · rw [if_neg h1]
    by_cases h2 : dstOf dest p ∈ chainOf dest e ∧ lookupFS fs (dstOf dest p) = none
    · exact absurd h2.1 (fun hm =>
        dst_extension_not_in_chain hwf hp hnep he hnee hfP hokE.1 (pathLe_refl _) hm)
    · rw [if_neg h2]

theorem entryOK_step_fwd {fs fs' : FS} {ws dest e p : FsPath}
    (hwf : WF fs) (hr : rootsApart ws dest)
    (he : e.absolute = false) (hnee : e.components ≠ [])
    (hp : p.absolute = false) (hnep : p.components ≠ [])
    (hokE : entryOK fs ws dest e)
    (hfs' : ∀ r, lookupFS fs' r = stepState fs ws dest e r)
    (hokP : entryOK fs ws dest p) : entryOK fs' ws dest p := by
  have hsrc := step_src_stable hr hp he hfs'
  have htgt := step_tgt_stable hwf hr he hnee hp hnep hokE hokP.1 hfs'
  refine ⟨?_, ?_, ?_⟩
  · rw [hsrc]
    exact hokP.1
  · intro q hq
    rw [hfs' q]
    unfold stepState
    by_cases h1 : q = tgtOf fs ws dest e
    · exact absurd (h1 ▸ hq) (fun hm =>
        tgt_not_in_chain hwf he hnee hp hnep hokE.1 hokP.1 hm)
    · rw [if_neg h1]
      by_cases h2 : q ∈ chainOf dest e ∧ lookupFS fs q = none
      · rw [if_pos h2]
        simp [isFileN]
      · rw [if_neg h2]
        exact hokP.2.1 q hq
  · rw [htgt, hfs' _]
    unfold stepState
    by_cases h1 : tgtOf fs ws dest p = tgtOf fs ws dest e
    · rw [if_pos h1]
      obtain ⟨c, m, pm, hE⟩ := (isFileN_true_iff _).mp hokE.1
      rw [hE]
      simp
    · rw [if_neg h1]
      by_cases h2 : tgtOf fs ws dest p ∈ chainOf dest e ∧
          lookupFS fs (tgtOf fs ws dest p) = none
      · exact absurd h2.1 (fun hm =>
          tgt_not_in_chain hwf hp hnep he hnee hokP.1 hokE.1 hm)
      · rw [if_neg h2]
        exact hokP.2.2

theorem entryOK_step_bwd {fs fs' : FS} {ws dest e p : FsPath}
    (hwf : WF fs) (hr : rootsApart ws dest)
    (he : e.absolute = false) (hnee : e.components ≠ [])
    (hp : p.absolute = false) (hnep : p.components ≠ [])
    (hokE : entryOK fs ws dest e)
    (hfs' : ∀ r, lookupFS fs' r = stepState fs ws dest e r)
    (hokP' : entryOK fs' ws dest p) : entryOK fs ws dest p := by
  have hsrc := step_src_stable hr hp he hfs'
  have hfP : isFileN (lookupFS fs (srcOf ws p)) = true := by
    rw [← hsrc]
    exact hokP'.1
  have htgt := step_tgt_stable hwf hr he hnee hp hnep hokE hfP hfs'
  refine ⟨hfP, ?_, ?_⟩
  · intro q hq
    have h3 := hokP'.2.1 q hq
    rw [hfs' q] at h3
    unfold stepState at h3
    by_cases h1 : q = tgtOf fs ws dest e
    · exact absurd (h1 ▸ hq) (fun hm =>
        tgt_not_in_chain hwf he hnee hp hnep hokE.1 hfP hm)
    · rw [if_neg h1] at h3
      by_cases h2 : q ∈ chainOf dest e ∧ lookupFS fs q = none
      · rw [h2.2]
        simp [isFileN]
      · rw [if_neg h2] at h3
        exact h3
  · have h3 := hokP'.2.2
    rw [htgt, hfs' _] at h3
    unfold stepState at h3
    by_cases h1 : tgtOf fs ws dest p = tgtOf fs ws dest e
    · rw [h1]
      exact hokE.2.2
    · rw [if_neg h1] at h3
      by_cases h2 : tgtOf fs ws dest p ∈ chainOf dest e ∧
          lookupFS fs (tgtOf fs ws dest p) = none
      · exact absurd h2.1 (fun hm =>
          tgt_not_in_chain hwf hp hnep he hnee hfP hokE.1 hm)
      · rw [if_neg h2] at h3
        exact h3

theorem copiedB_step_stable {fs fs' : FS} {ws dest e p : FsPath} (hr : rootsApart ws dest)
    (hp : p.absolute = false) (he : e.absolute = false)
    (hfs' : ∀ r, lookupFS fs' r = stepState fs ws dest e r) :
    copiedB fs' ws p = copiedB fs ws p := by
  unfold copiedB
  rw [step_src_stable hr hp he hfs']

theorem listFindCongr {α : Type} {f g : α → Bool} {l : List α} (h : ∀ x ∈ l, f x = g x) :
    l.find? f = l.find? g := by
  induction l with
  | nil => rfl
  | cons a l ih =>
    have ha := h a (List.mem_cons_self a l)
    cases hg : g a with
    | true =>
      rw [List.find?_cons_of_pos _ (ha.trans hg), List.find?_cons_of_pos _ hg]
    | false =>
      rw [List.find?_cons_of_neg _ (by rw [ha, hg]; simp),
        List.find?_cons_of_neg _ (by rw [hg]; simp)]
      exact ih (fun x hx => h x (List.mem_cons_of_mem _ hx))

theorem listAnyCongr {α : Type} {f g : α → Bool} {l : List α} (h : ∀ x ∈ l, f x = g x) :
    l.any f = l.any g := by
  induction l with
  | nil => rfl
  | cons a l ih =>
    rw [List.any_cons, List.any_cons, h a (List.mem_cons_self a l),
      ih (fun x hx => h x (List.mem_cons_of_mem _ hx))]

theorem logsOf_congr {fs fs' : FS} {ws : FsPath} {l : List FsPath}
    (h : ∀ p ∈ l, copiedB fs' ws p = copiedB fs ws p) :
    logsOf fs' ws l = logsOf fs ws l := by
  unfold logsOf
  induction l with
  | nil => rfl
  | cons a l ih =>
    rw [List.filterMap_cons, List.filterMap_cons, h a (List.mem_cons_self a l),
      ih (fun p hp => h p (List.mem_cons_of_mem _ hp))]

theorem finalAt_eq_some {fs : FS} {ws dest : FsPath} {l : List FsPath} {q p : FsPath}
    (h : l.find? (fun p => copiedB fs ws p && decide (tgtOf fs ws dest p = q)) = some p) :
    finalAt fs ws dest l q = lookupFS fs (srcOf ws p) := by
  unfold finalAt
  rw [h]

theorem finalAt_eq_none {fs : FS} {ws dest : FsPath} {l : List FsPath} {q : FsPath}
    (h : l.find? (fun p => copiedB fs ws p && decide (tgtOf fs ws dest p = q)) = none) :
    finalAt fs ws dest l q =
      if (l.any fun p => copiedB fs ws p && decide (q ∈ chainOf dest p)) = true
          ∧ lookupFS fs q = none
      then some Node.dir else lookupFS fs q := by
  unfold finalAt
  rw [h]

theorem finalAt_skip {fs : FS} {ws dest e : FsPath} {l : List FsPath}
    (hcop : copiedB fs ws e = false) (q : FsPath) :
    finalAt fs ws dest (e :: l) q = finalAt fs ws dest l q := by
  have hpredE : ¬ ((copiedB fs ws e && decide (tgtOf fs ws dest e = q)) = true) := by
    rw [hcop]
    simp
  have hcons := @List.find?_cons_of_neg _
    (fun p => copiedB fs ws p && decide (tgtOf fs ws dest p = q)) e l hpredE
  cases hfd : l.find? (fun p => copiedB fs ws p && decide (tgtOf fs ws dest p = q)) with
  | some p =>
    rw [finalAt_eq_some (hcons.trans hfd), finalAt_eq_some hfd]
  | none =>
    rw [finalAt_eq_none (hcons.trans hfd), finalAt_eq_none hfd]
    rw [List.any_cons, hcop]
    simp only [Bool.false_and, Bool.false_or]

theorem finalAt_step {fs fs' : FS} {ws dest e : FsPath} {l : List FsPath}
    (hwf : WF fs) (hr : rootsApart ws dest)
    (he : e.absolute = false) (hnee : e.components ≠ [])
    (hg : goodEntries l)
    (hcopE : copiedB fs ws e = true) (hokE : entryOK fs ws dest e)
    (hokL : OKC fs ws dest l)
    (hfs' : ∀ r, lookupFS fs' r = stepState fs ws dest e r) :
    ∀ q, finalAt fs' ws dest l q = finalAt fs ws dest (e :: l) q := by
  intro q
  have hcopL : ∀ p ∈ l, copiedB fs' ws p = copiedB fs ws p := fun p hp =>
    copiedB_step_stable hr (hg p hp).1 he hfs'
  have htgtL : ∀ p ∈ l, copiedB fs ws p = true →
      tgtOf fs' ws dest p = tgtOf fs ws dest p := fun p hp hc =>
    step_tgt_stable hwf hr he hnee (hg p hp).1 (hg p hp).2 hokE (hokL p hp hc).1 hfs'
  have hsrcL : ∀ p ∈ l, lookupFS fs' (srcOf ws p) = lookupFS fs (srcOf ws p) := fun p hp =>
    step_src_stable hr (hg p hp).1 he hfs'
  have hfind : l.find? (fun p => copiedB fs' ws p && decide (tgtOf fs' ws dest p = q)) =
      l.find? (fun p => copiedB fs ws p && decide (tgtOf fs ws dest p = q)) := by
    apply listFindCongr
    intro p hp
    rw [hcopL p hp]
    cases hc : copiedB fs ws p with
    | false => simp
    | true => rw [htgtL p hp hc]
  have hany : (l.any fun p => copiedB fs' ws p && decide (q ∈ chainOf dest p)) =
      (l.any fun p => copiedB fs ws p && decide (q ∈ chainOf dest p)) := by
    apply listAnyCongr
    intro p hp
    rw [hcopL p hp]
  by_cases hqT : q = tgtOf fs ws dest e
  · have hconsfind : (e :: l).find?
        (fun p => copiedB fs ws p && decide (tgtOf fs ws dest p = q)) = some e :=
      List.find?_cons_of_pos _ (by rw [hcopE, hqT]; simp)
    rw [finalAt_eq_some hconsfind]
    obtain ⟨c, m, pm, hE⟩ := (isFileN_true_iff _).mp hokE.1
    have hq' : lookupFS fs' q = some (Node.file c m pm) := by
      rw [hfs' q]
      unfold stepState
      rw [if_pos hqT, hE]
    cases hfd : l.find? (fun p => copiedB fs ws p && decide (tgtOf fs ws dest p = q)) with
    | some p =>
      have hpmem := List.mem_of_find?_eq_some hfd
      have hptrue := List.find?_some hfd
      simp only [Bool.and_eq_true, decide_eq_true_eq] at hptrue
      have hpe : p = e := tgt_inj hwf (hg p hpmem).1 (hg p hpmem).2 he hnee
        (hokL p hpmem hptrue.1).1 hokE.1 (hptrue.2.trans hqT)
      rw [finalAt_eq_some (hfind.trans hfd)]
      rw [hsrcL p hpmem, hpe]
    | none =>
      rw [finalAt_eq_none (hfind.trans hfd), hany]
      rw [hq', if_neg (fun hh => absurd hh.2 (by simp)), hE]
  · have hpredE : ¬ ((copiedB fs ws e && decide (tgtOf fs ws dest e = q)) = true) := by
      simp only [Bool.and_eq_true, decide_eq_true_eq]
      rintro ⟨h1, h2⟩
      exact hqT h2.symm
    have hcons := @List.find?_cons_of_neg _
      (fun p => copiedB fs ws p && decide (tgtOf fs ws dest p = q)) e l hpredE
    cases hfd : l.find? (fun p => copiedB fs ws p && decide (tgtOf fs ws dest p = q)) with
    | some p =>
      have hpmem := List.mem_of_find?_eq_some hfd
      rw [finalAt_eq_some (hfind.trans hfd), finalAt_eq_some (hcons.trans hfd)]
      rw [hsrcL p hpmem]
    | none =>
      rw [finalAt_eq_none (hfind.trans hfd), finalAt_eq_none (hcons.trans hfd), hany]
      rw [List.any_cons]
      by_cases hqc : q ∈ chainOf dest e
      · by_cases hqn : lookupFS fs q = none
        · have hq' : lookupFS fs' q = some Node.dir := by
            rw [hfs' q]
            unfold stepState
            rw [if_neg hqT, if_pos ⟨hqc, hqn⟩]
          rw [hq', if_neg (fun hh => absurd hh.2 (by simp))]
          rw [if_pos ⟨by simp [hcopE, hqc], hqn⟩]
        · have hq' : lookupFS fs' q = lookupFS fs q := by
            rw [hfs' q]
            unfold stepState
            rw [if_neg hqT, if_neg (fun hh => hqn hh.2)]
          rw [hq']
          rw [if_neg (fun hh => hqn hh.2), if_neg (fun hh => hqn hh.2)]
      · have hq' : lookupFS fs' q = lookupFS fs q := by
          rw [hfs' q]
          unfold stepState
          rw [if_neg hqT, if_neg (fun hh => hqc hh.1)]
        rw [hq']
        have hpe2 : (copiedB fs ws e && decide (q ∈ chainOf dest e)) = false := by
          simp [hqc]
        rw [hpe2, Bool.false_or]

theorem OKC_cons {fs : FS} {ws dest e : FsPath} {l : List FsPath} :
    OKC fs ws dest (e :: l) ↔
      (copiedB fs ws e = true → entryOK fs ws dest e) ∧ OKC fs ws dest l := by
  unfold OKC
  rw [List.forall_mem_cons]

theorem goodEntries_cons {e : FsPath} {l : List FsPath} :
    goodEntries (e :: l) ↔ (e.absolute = false ∧ e.components ≠ []) ∧ goodEntries l := by
  unfold goodEntries
  rw [List.forall_mem_cons]

theorem logsOf_nil (fs : FS) (ws : FsPath) : logsOf fs ws [] = [] := rfl

theorem logsOf_cons_copied {fs : FS} {ws e : FsPath} {l : List FsPath}
    (h : copiedB fs ws e = true) : logsOf fs ws (e :: l) = logsOf fs ws l := by
  unfold logsOf
  rw [List.filterMap_cons, h]
  simp

theorem logsOf_cons_skip {fs : FS} {ws e : FsPath} {l : List FsPath}
    (h : copiedB fs ws e = false) :
    logsOf fs ws (e :: l) = notFoundLine (srcOf ws e) :: logsOf fs ws l := by
  unfold logsOf
  rw [List.filterMap_cons, h]
  simp

theorem copyFilesAux_cons (ws dest e : FsPath) (l : List FsPath) (st : FS × List String) :
    copyFilesAux ws dest (e :: l) st =
      match processOne ws dest st e with
      | Except.error err => Except.error err
      | Except.ok st1 => copyFilesAux ws dest l st1 := rfl

theorem finalAt_nil (fs : FS) (ws dest q : FsPath) :
    finalAt fs ws dest [] q = lookupFS fs q := by
  unfold finalAt
  simp

theorem runA (ws dest : FsPath) (hr : rootsApart ws dest) (l : List FsPath) :
    ∀ fs log, goodEntries l → WF fs → OKC fs ws dest l →
    ∃ fs1, copyFilesAux ws dest l (fs, log) = Except.ok (fs1, log ++ logsOf fs ws l) ∧
      WF fs1 ∧ ∀ q, lookupFS fs1 q = finalAt fs ws dest l q := by
  induction l with
  | nil =>
    intro fs log hg hwf hok
    refine ⟨fs, ?_, hwf, ?_⟩
    · rw [logsOf_nil, List.append_nil]
      rfl
    · intro q
      rw [finalAt_nil]
  | cons e l ih =>
    intro fs log hg hwf hok
    have hge := (goodEntries_cons.mp hg).1
    have hgl := (goodEntries_cons.mp hg).2
    have hoke := (OKC_cons.mp hok).1
    have hokl := (OKC_cons.mp hok).2
    cases hcop : copiedB fs ws e with
    | false =>
      have hstep : processOne ws dest (fs, log) e =
          Except.ok (fs, log ++ [notFoundLine (srcOf ws e)]) := processOne_skip log hcop
      obtain ⟨fs1, h1, hwf1, hchar⟩ := ih fs (log ++ [notFoundLine (srcOf ws e)]) hgl hwf hokl
      refine ⟨fs1, ?_, hwf1, ?_⟩
      · rw [copyFilesAux_cons, hstep, logsOf_cons_skip hcop]
        rw [show log ++ (notFoundLine (srcOf ws e) :: logsOf fs ws l) =
            (log ++ [notFoundLine (srcOf ws e)]) ++ logsOf fs ws l by simp]
        exact h1
      · intro q
        rw [hchar q, finalAt_skip hcop q]
    | true =>
      have hokE := hoke hcop
      obtain ⟨fs2, hstep, hchar2⟩ := processOne_ok_copied log hge.1 hge.2 hr hcop hokE
      have hwf2 : WF fs2 := WF_step hwf hge.1 hge.2 hokE hchar2
      have hokl2 : OKC fs2 ws dest l := by
        intro p hp hc
        have hcp : copiedB fs ws p = true := by
          rw [← copiedB_step_stable hr (hgl p hp).1 hge.1 hchar2]
          exact hc
        exact entryOK_step_fwd hwf hr hge.1 hge.2 (hgl p hp).1 (hgl p hp).2 hokE hchar2
          (hokl p hp hcp)
      obtain ⟨fs1, h1, hwf1, hchar⟩ := ih fs2 log hgl hwf2 hokl2
      refine ⟨fs1, ?_, hwf1, ?_⟩
      · rw [copyFilesAux_cons, hstep, logsOf_cons_copied hcop]
        have hlog : logsOf fs2 ws l = logsOf fs ws l := logsOf_congr
          (fun p hp => copiedB_step_stable hr (hgl p hp).1 hge.1 hchar2)
        rw [← hlog]
        exact h1
      · intro q
        rw [hchar q]
        exact finalAt_step hwf hr hge.1 hge.2 hgl hcop hokE hokl hchar2 q

theorem runB (ws dest : FsPath) (hr : rootsApart ws dest) (l : List FsPath) :
    ∀ fs log fs1 log1, goodEntries l → WF fs →
      copyFilesAux ws dest l (fs, log) = Except.ok (fs1, log1) →
      OKC fs ws dest l ∧ log1 = log ++ logsOf fs ws l ∧ WF fs1 ∧
        ∀ q, lookupFS fs1 q = finalAt fs ws dest l q := by
  induction l with
  | nil =>
    intro fs log fs1 log1 hg hwf h
    replace h : (Except.ok (fs, log) : Except Err (FS × List String)) = Except.ok (fs1, log1) := h
    simp only [Except.ok.injEq, Prod.mk.injEq] at h
    obtain ⟨hfs, hlog⟩ := h
    subst hfs
    subst hlog
    refine ⟨?_, ?_, hwf, ?_⟩
    · intro p hp
      simp at hp
    · rw [logsOf_nil, List.append_nil]
    · intro q
      rw [finalAt_nil]
  | cons e l ih =>
    intro fs log fs1 log1 hg hwf h
    have hge := (goodEntries_cons.mp hg).1
    have hgl := (goodEntries_cons.mp hg).2
    rw [copyFilesAux_cons] at h
    cases hstep : processOne ws dest (fs, log) e with
    | error err =>
      rw [hstep] at h
      replace h : (Except.error err : Except Err (FS × List String)) = Except.ok (fs1, log1) := h
      exact absurd h (by simp)
    | ok st2 =>
      obtain ⟨fs2, log2⟩ := st2
      rw [hstep] at h
      replace h : copyFilesAux ws dest l (fs2, log2) = Except.ok (fs1, log1) := h
      rcases processOne_ok_inv hge.1 hge.2 hr hstep with ⟨hcop, hfs2, hlog2⟩ |
        ⟨hcop, hokE, hlog2, hchar2⟩
      · rw [hfs2, hlog2] at h
        obtain ⟨hokl, hlog1, hwf1, hchar⟩ :=
          ih fs (log ++ [notFoundLine (srcOf ws e)]) fs1 log1 hgl hwf h
        refine ⟨?_, ?_, hwf1, ?_⟩
        · apply OKC_cons.mpr
          refine ⟨?_, hokl⟩
          intro hc
          rw [hcop] at hc
          exact absurd hc (by simp)
        · rw [hlog1, logsOf_cons_skip hcop]
          simp
        · intro q
          rw [hchar q, finalAt_skip hcop q]
      · rw [hlog2] at h
        have hwf2 : WF fs2 := WF_step hwf hge.1 hge.2 hokE hchar2
        obtain ⟨hokl2, hlog1, hwf1, hchar⟩ := ih fs2 log fs1 log1 hgl hwf2 h
        have hokl : OKC fs ws dest l := by
          intro p hp hc
          have hc2 : copiedB fs2 ws p = true := by
            rw [copiedB_step_stable hr (hgl p hp).1 hge.1 hchar2]
            exact hc
          exact entryOK_step_bwd hwf hr hge.1 hge.2 (hgl p hp).1 (hgl p hp).2 hokE hchar2
            (hokl2 p hp hc2)
        refine ⟨OKC_cons.mpr ⟨fun _ => hokE, hokl⟩, ?_, hwf1, ?_⟩
        · rw [hlog1, logsOf_cons_copied hcop]
          have hlog : logsOf fs2 ws l = logsOf fs ws l := logsOf_congr
            (fun p hp => copiedB_step_stable hr (hgl p hp).1 hge.1 hchar2)
          rw [hlog]
        · intro q
          rw [hchar q]
          exact finalAt_step hwf hr hge.1 hge.2 hgl hcop hokE hokl hchar2 q

theorem frame_step {ws dest : FsPath} {fs fs' : FS} {log log' : List String} {e : FsPath}
    (he : e.absolute = false)
    (h : processOne ws dest (fs, log) e = Except.ok (fs', log')) :
    ∀ q, lookupFS fs' q ≠ lookupFS fs q →
      pathLe dest q ∨ (pathLe q dest ∧ lookupFS fs q = none ∧
        lookupFS fs' q = some Node.dir) := by
  intro q hq
  cases hcop : (lookupFS fs (joinPath ws e)).isSome with
  | false =>
    rw [processOne_skip log hcop] at h
    simp only [Except.ok.injEq, Prod.mk.injEq] at h
    rw [← h.1] at hq
    exact absurd rfl hq
  | true =>
    unfold processOne at h
    simp only [hcop, if_true] at h
    cases hmk : makedirs fs (dirname (joinPath dest e)) with
    | error err =>
      rw [hmk] at h
      simp at h
    | ok fs1 =>
      rw [hmk] at h
      simp only [] at h
      cases hcp : copy2 fs1 (joinPath ws e) (joinPath dest e) with
      | error err =>
        rw [hcp] at h
        simp at h
      | ok fs2 =>
        rw [hcp] at h
        replace h : (Except.ok (fs2, log) : Except Err (FS × List String)) =
          Except.ok (fs', log') := h
        simp only [Except.ok.injEq, Prod.mk.injEq] at h
        obtain ⟨c, m, pm, hsp1, hne1, hnd1, hfs2⟩ :=
          copy2_ok_inv fs1 (joinPath ws e) (joinPath dest e) fs2 hcp
        have hchain := mkdirsList_ok_inv (chainOf dest e) fs fs1 hmk
        obtain ⟨fs1', heq1, hchar1⟩ := mkdirsList_ok (chainOf dest e) fs hchain
        have hfs1 : fs1' = fs1 := by
          have h2 : (Except.ok fs1' : Except Err FS) = Except.ok fs1 := heq1.symm.trans hmk
          simpa using h2
        subst hfs1
        rw [← h.1, hfs2] at hq
        rw [← h.1, hfs2]
        rw [lookupFS_insert] at hq
        rw [lookupFS_insert]
        by_cases hqt : q = redirTgt fs1' (joinPath ws e) (joinPath dest e)
        · left
          rw [hqt]
          exact pathLe_trans (pathLe_joinPath dest he)
            (pathLe_redirTgt fs1' (joinPath ws e) (joinPath dest e))
        · rw [if_neg hqt] at hq
          rw [if_neg hqt]
          rw [hchar1 q] at hq
          rw [hchar1 q]
          by_cases hqc : q ∈ chainOf dest e ∧ lookupFS fs q = none
          · rw [if_pos hqc] at hq
            rw [if_pos hqc]
            rcases chain_comparable_dest he hqc.1 with hc | hc
            · exact Or.inr ⟨hc, hqc.2, rfl⟩
            · exact Or.inl hc
          · rw [if_neg hqc] at hq
            exact absurd rfl hq

theorem copyFilesAux_frame (ws dest : FsPath) (l : List FsPath) :
    ∀ fs0 log0 fs1 log1, (∀ p ∈ l, p.absolute = false) →
      copyFilesAux ws dest l (fs0, log0) = Except.ok (fs1, log1) →
      ∀ q, lookupFS fs1 q ≠ lookupFS fs0 q →
        pathLe dest q ∨ (pathLe q dest ∧ lookupFS fs0 q = none ∧
          lookupFS fs1 q = some Node.dir) := by
  induction l with
  | nil =>
    intro fs0 log0 fs1 log1 hg h q hq
    replace h : (Except.ok (fs0, log0) : Except Err (FS × List String)) =
      Except.ok (fs1, log1) := h
    simp only [Except.ok.injEq, Prod.mk.injEq] at h
    rw [h.1] at hq
    exact absurd rfl hq
  | cons e l ih =>
    intro fs0 log0 fs1 log1 hg h q hq
    rw [copyFilesAux_cons] at h
    cases hstep : processOne ws dest (fs0, log0) e with
    | error err =>
      rw [hstep] at h
      simp at h
    | ok st2 =>
      obtain ⟨fs2, log2⟩ := st2
      rw [hstep] at h
      replace h : copyFilesAux ws dest l (fs2, log2) = Except.ok (fs1, log1) := h
      by_cases hq2 : lookupFS fs1 q = lookupFS fs2 q
      · rw [hq2] at hq
        rcases frame_step (hg e (List.mem_cons_self e l)) hstep q hq with h1 | h1
        · exact Or.inl h1
        · exact Or.inr ⟨h1.1, h1.2.1, by rw [hq2]; exact h1.2.2⟩
      · rcases ih fs2 log2 fs1 log1 (fun p hp => hg p (List.mem_cons_of_mem _ hp)) h q hq2
          with h1 | h1
        · exact Or.inl h1
        · obtain ⟨hle, hnone, hdir⟩ := h1
          by_cases hq3 : lookupFS fs2 q = lookupFS fs0 q
          · rw [hq3] at hnone
            exact Or.inr ⟨hle, hnone, hdir⟩
          · rcases frame_step (hg e (List.mem_cons_self e l)) hstep q hq3 with h2 | h2
            · exact Or.inl h2
            · rw [h2.2.2] at hnone
              exact absurd hnone (by simp)

theorem processOne_log_shape {ws dest : FsPath} {fs fs2 : FS} {log log2 : List String}
    {e : FsPath} (h : processOne ws dest (fs, log) e = Except.ok (fs2, log2)) :
    log2 = log ∨ log2 = log ++ [notFoundLine (joinPath ws e)] := by
  unfold processOne at h
  by_cases hc : (lookupFS fs (joinPath ws e)).isSome = true
  · simp only [hc, if_true] at h
    left
    cases hmk : makedirs fs (dirname (joinPath dest e)) with
    | error err =>
      rw [hmk] at h
      simp at h
    | ok fsx =>
      rw [hmk] at h
      simp only [] at h
      cases hcp : copy2 fsx (joinPath ws e) (joinPath dest e) with
      | error err =>
        rw [hcp] at h
        simp at h
      | ok fsy =>
        rw [hcp] at h
        replace h : (Except.ok (fsy, log) : Except Err (FS × List String)) =
          Except.ok (fs2, log2) := h
        simp only [Except.ok.injEq, Prod.mk.injEq] at h
        exact h.2.symm
  · simp only [hc, if_false] at h
    replace h : (Except.ok (fs, log ++ [notFoundLine (joinPath ws e)]) :
      Except Err (FS × List String)) = Except.ok (fs2, log2) := h
    simp only [Except.ok.injEq, Prod.mk.injEq] at h
    right
    exact h.2.symm

theorem copyFilesAux_log_shape (ws dest : FsPath) (l : List FsPath) :
    ∀ fs0 log0 fs1 log1, copyFilesAux ws dest l (fs0, log0) = Except.ok (fs1, log1) →
      ∃ extra, log1 = log0 ++ extra ∧ ∀ s ∈ extra, ∃ p, s = notFoundLine p := by
  induction l with
  | nil =>
    intro fs0 log0 fs1 log1 h
    replace h : (Except.ok (fs0, log0) : Except Err (FS × List String)) =
      Except.ok (fs1, log1) := h
    simp only [Except.ok.injEq, Prod.mk.injEq] at h
    refine ⟨[], ?_, ?_⟩
    · rw [List.append_nil, h.2]
    · intro s hs
      simp at hs
  | cons e l ih =>
    intro fs0 log0 fs1 log1 h
    rw [copyFilesAux_cons] at h
    cases hstep : processOne ws dest (fs0, log0) e with
    | error err =>
      rw [hstep] at h
      simp at h
    | ok st2 =>
      obtain ⟨fs2, log2⟩ := st2
      rw [hstep] at h
      replace h : copyFilesAux ws dest l (fs2, log2) = Except.ok (fs1, log1) := h
      obtain ⟨extra, hlog, hsh⟩ := ih fs2 log2 fs1 log1 h
      rcases processOne_log_shape hstep with h2 | h2
      · refine ⟨extra, ?_, hsh⟩
        rw [hlog, h2]
      · refine ⟨notFoundLine (joinPath ws e) :: extra, ?_, ?_⟩
        · rw [hlog, h2]
          simp
        · intro s hs
          rcases List.mem_cons.mp hs with rfl | hs2
          · exact ⟨joinPath ws e, rfl⟩
          · exact hsh s hs2

theorem notFoundLine_ne_completion (p : FsPath) : notFoundLine p ≠ completionLine := by
  intro h
  have h2 : (notFoundLine p).data.head? = completionLine.data.head? := by rw [h]
  have h3 : (notFoundLine p).data = "File not found: ".data ++ (pathStr p).data := rfl
  rw [h3] at h2
  simp [List.head?_append, completionLine] at h2

theorem copyFilesAux_append (ws dest : FsPath) (l1 l2 : List FsPath) :
    ∀ st, copyFilesAux ws dest (l1 ++ l2) st =
      match copyFilesAux ws dest l1 st with
      | Except.error err => Except.error err
      | Except.ok st1 => copyFilesAux ws dest l2 st1 := by
  induction l1 with
  | nil =>
    intro st
    rfl
  | cons e l1 ih =>
    intro st
    rw [List.cons_append, copyFilesAux_cons, copyFilesAux_cons]
    cases hstep : processOne ws dest st e with
    | error err => rfl
    | ok st1 => exact ih st1

theorem finalAt_src {fs : FS} {ws dest : FsPath} {l : List FsPath} (hr : rootsApart ws dest)
    (hg : goodEntries l) {p : FsPath} (hp : p.absolute = false) :
    finalAt fs ws dest l (srcOf ws p) = lookupFS fs (srcOf ws p) := by
  have hfind : l.find?
      (fun x => copiedB fs ws x && decide (tgtOf fs ws dest x = srcOf ws p)) = none := by
    apply List.find?_eq_none.mpr
    intro x hx
    simp only [Bool.and_eq_true, decide_eq_true_eq, not_and]
    intro hc ht
    exact src_not_tgt hr hp (hg x hx).1 ht.symm
  have hcond : ¬ (((l.any fun x => copiedB fs ws x &&
      decide (srcOf ws p ∈ chainOf dest x)) = true) ∧
      lookupFS fs (srcOf ws p) = none) := by
    rintro ⟨hany, _⟩
    rw [List.any_eq_true] at hany
    obtain ⟨x, hx, hxx⟩ := hany
    simp only [Bool.and_eq_true, decide_eq_true_eq] at hxx
    exact src_not_in_chain hr hp (hg x hx).1 hxx.2
  rw [finalAt_eq_none hfind, if_neg hcond]

theorem final_copied_stable {fs fs1 : FS} {ws dest : FsPath} {l : List FsPath}
    (hr : rootsApart ws dest) (hg : goodEntries l)
    (hfin : ∀ q, lookupFS fs1 q = finalAt fs ws dest l q) :
    ∀ p ∈ l, copiedB fs1 ws p = copiedB fs ws p := by
  intro p hp
  unfold copiedB
  rw [hfin, finalAt_src hr hg (hg p hp).1]

theorem final_tgt_stable {fs fs1 : FS} {ws dest : FsPath} {l : List FsPath}
    (hr : rootsApart ws dest) (hg : goodEntries l) (hwf : WF fs)
    (hok : OKC fs ws dest l)
    (hfin : ∀ q, lookupFS fs1 q = finalAt fs ws dest l q)
    {p : FsPath} (hp : p ∈ l) (hc : copiedB fs ws p = true) :
    tgtOf fs1 ws dest p = tgtOf fs ws dest p := by
  have hfP := (hok p hp hc).1
  unfold tgtOf
  apply redirTgt_congr_dir
  rw [hfin (dstOf dest p)]
  constructor
  · intro h1
    cases hfd : l.find?
        (fun x => copiedB fs ws x && decide (tgtOf fs ws dest x = dstOf dest p)) with
    | some x =>
      rw [finalAt_eq_some hfd] at h1
      have hxmem := List.mem_of_find?_eq_some hfd
      have hxt := List.find?_some hfd
      simp only [Bool.and_eq_true, decide_eq_true_eq] at hxt
      have hxf := (hok x hxmem hxt.1).1
      rw [h1] at hxf
      simp [isFileN] at hxf
    | none =>
      rw [finalAt_eq_none hfd] at h1
      by_cases hcnd : ((l.any fun x => copiedB fs ws x &&
          decide (dstOf dest p ∈ chainOf dest x)) = true) ∧
          lookupFS fs (dstOf dest p) = none
      · obtain ⟨hany, _⟩ := hcnd
        rw [List.any_eq_true] at hany
        obtain ⟨x, hx, hxx⟩ := hany
        simp only [Bool.and_eq_true, decide_eq_true_eq] at hxx
        exact (dst_extension_not_in_chain hwf (hg p hp).1 (hg p hp).2 (hg x hx).1
          (hg x hx).2 hfP (hok x hx hxx.1).1 (pathLe_refl _) hxx.2).elim
      · rw [if_neg hcnd] at h1
        exact h1
  · intro h1
    cases hfd : l.find?
        (fun x => copiedB fs ws x && decide (tgtOf fs ws dest x = dstOf dest p)) with
    | some x =>
      have hxmem := List.mem_of_find?_eq_some hfd
      have hxt := List.find?_some hfd
      simp only [Bool.and_eq_true, decide_eq_true_eq] at hxt
      rcases tgtOf_cases fs ws dest x with ⟨hdx, hTx⟩ | ⟨hdx, hTx⟩
      · have hcompe := congrArg FsPath.components hxt.2
        rw [hTx] at hcompe
        simp only [mk_components, dstOf_components dest (hg x hxmem).1,
          dstOf_components dest (hg p hp).1] at hcompe
        rw [List.append_assoc] at hcompe
        have hXP := List.append_cancel_left hcompe
        have hlt : x.components <+: p.components := by
          rw [← hXP]
          exact List.prefix_append _ _
        have hnexp : x ≠ p := by
          intro hxp
          rw [hxp] at hXP
          have hlen := congrArg List.length hXP
          simp at hlen
        exact (src_files_incomparable hwf (hg x hxmem).1 (hg p hp).1
          (hok x hxmem hxt.1).1 (isSome_of_isFileN hfP) hlt hnexp).elim
      · have hdd : dstOf dest x = dstOf dest p := by
          rw [← hTx]
          exact hxt.2
        rw [hdd] at hdx
        exact (hdx h1).elim
    | none =>
      rw [finalAt_eq_none hfd]
      have hcond : ¬ (((l.any fun x => copiedB fs ws x &&
          decide (dstOf dest p ∈ chainOf dest x)) = true) ∧
          lookupFS fs (dstOf dest p) = none) := by
        rintro ⟨_, hn⟩
        rw [h1] at hn
        exact absurd hn (by simp)
      rw [if_neg hcond]
      exact h1

theorem final_tgt_value {fs fs1 : FS} {ws dest : FsPath} {l : List FsPath}
    (hg : goodEntries l) (hwf : WF fs) (hok : OKC fs ws dest l)
    (hfin : ∀ q, lookupFS fs1 q = finalAt fs ws dest l q)
    {p : FsPath} (hp : p ∈ l) (hc : copiedB fs ws p = true) :
    lookupFS fs1 (tgtOf fs ws dest p) = lookupFS fs (srcOf ws p) := by
  have hfP := (hok p hp hc).1
  rw [hfin]
  have hex : ∃ x ∈ l, (copiedB fs ws x &&
      decide (tgtOf fs ws dest x = tgtOf fs ws dest p)) = true :=
    ⟨p, hp, by rw [hc]; simp⟩
  obtain ⟨x, hfd⟩ := Option.isSome_iff_exists.mp (List.find?_isSome.mpr hex)
  rw [finalAt_eq_some hfd]
  have hxmem := List.mem_of_find?_eq_some hfd
  have hxt := List.find?_some hfd
  simp only [Bool.and_eq_true, decide_eq_true_eq] at hxt
  have hxp : x = p := tgt_inj hwf (hg x hxmem).1 (hg x hxmem).2 (hg p hp).1 (hg p hp).2
    (hok x hxmem hxt.1).1 hfP hxt.2
  rw [hxp]

theorem OKC_final {fs fs1 : FS} {ws dest : FsPath} {l : List FsPath}
    (hr : rootsApart ws dest) (hg : goodEntries l) (hwf : WF fs)
    (hok : OKC fs ws dest l)
    (hfin : ∀ q, lookupFS fs1 q = finalAt fs ws dest l q) :
    OKC fs1 ws dest l := by
  intro p hp hc1
  have hc : copiedB fs ws p = true := by
    rw [← final_copied_stable hr hg hfin p hp]
    exact hc1
  have hokP := hok p hp hc
  refine ⟨?_, ?_, ?_⟩
  · show isFileN (lookupFS fs1 (srcOf ws p)) = true
    rw [hfin, finalAt_src hr hg (hg p hp).1]
    exact hokP.1
  · intro q hq
    rw [hfin q]
    cases hfd : l.find?
        (fun x => copiedB fs ws x && decide (tgtOf fs ws dest x = q)) with
    | some x =>
      have hxmem := List.mem_of_find?_eq_some hfd
      have hxt := List.find?_some hfd
      simp only [Bool.and_eq_true, decide_eq_true_eq] at hxt
      have hqc : tgtOf fs ws dest x ∈ chainOf dest p := by
        rw [hxt.2]
        exact hq
      exact (tgt_not_in_chain hwf (hg x hxmem).1 (hg x hxmem).2 (hg p hp).1 (hg p hp).2
        (hok x hxmem hxt.1).1 hokP.1 hqc).elim
    | none =>
      rw [finalAt_eq_none hfd]
      by_cases hcnd : ((l.any fun x => copiedB fs ws x &&
          decide (q ∈ chainOf dest x)) = true) ∧ lookupFS fs q = none
      · rw [if_pos hcnd]
        simp [isFileN]
      · rw [if_neg hcnd]
        exact hokP.2.1 q hq
  · rw [final_tgt_stable hr hg hwf hok hfin hp hc]
    rw [final_tgt_value hg hwf hok hfin hp hc]
    obtain ⟨c, m, pm, hE⟩ := (isFileN_true_iff _).mp hokP.1
    rw [hE]
    simp

theorem finalAt_fixpoint {fs fs1 : FS} {ws dest : FsPath} {l : List FsPath}
    (hr : rootsApart ws dest) (hg : goodEntries l) (hwf : WF fs)
    (hok : OKC fs ws dest l)
    (hfin : ∀ q, lookupFS fs1 q = finalAt fs ws dest l q) :
    ∀ q, finalAt fs1 ws dest l q = lookupFS fs1 q := by
  intro q
  have hfind : l.find? (fun x => copiedB fs1 ws x && decide (tgtOf fs1 ws dest x = q)) =
      l.find? (fun x => copiedB fs ws x && decide (tgtOf fs ws dest x = q)) := by
    apply listFindCongr
    intro x hx
    rw [final_copied_stable hr hg hfin x hx]
    cases hcx : copiedB fs ws x with
    | false => simp
    | true => rw [final_tgt_stable hr hg hwf hok hfin hx hcx]
  have hany : (l.any fun x => copiedB fs1 ws x && decide (q ∈ chainOf dest x)) =
      (l.any fun x => copiedB fs ws x && decide (q ∈ chainOf dest x)) := by
    apply listAnyCongr
    intro x hx
    rw [final_copied_stable hr hg hfin x hx]
  cases hfd : l.find? (fun x => copiedB fs ws x && decide (tgtOf fs ws dest x = q)) with
  | some x =>
    have hxmem := List.mem_of_find?_eq_some hfd
    rw [finalAt_eq_some (hfind.trans hfd)]
    rw [hfin (srcOf ws x), finalAt_src hr hg (hg x hxmem).1]
    rw [hfin q, finalAt_eq_some hfd]
  | none =>
    rw [finalAt_eq_none (hfind.trans hfd), hany]
    by_cases hcnd : ((l.any fun x => copiedB fs ws x &&
        decide (q ∈ chainOf dest x)) = true) ∧ lookupFS fs1 q = none
    · exfalso
      obtain ⟨hany2, hnone⟩ := hcnd
      rw [hfin q, finalAt_eq_none hfd] at hnone
      by_cases hc2 : ((l.any fun x => copiedB fs ws x &&
          decide (q ∈ chainOf dest x)) = true) ∧ lookupFS fs q = none
      · rw [if_pos hc2] at hnone
        exact absurd hnone (by simp)
      · rw [if_neg hc2] at hnone
        exact hc2 ⟨hany2, hnone⟩
    · rw [if_neg hcnd]

theorem finalAt_members {fs : FS} {ws dest : FsPath} {l1 l2 : List FsPath}
    (hwf : WF fs) (hg1 : goodEntries l1) (hg2 : goodEntries l2)
    (hok1 : OKC fs ws dest l1) (hok2 : OKC fs ws dest l2)
    (hmem : ∀ p, p ∈ l1 ↔ p ∈ l2) :
    ∀ q, finalAt fs ws dest l1 q = finalAt fs ws dest l2 q := by
  intro q
  cases hfd1 : l1.find? (fun x => copiedB fs ws x && decide (tgtOf fs ws dest x = q)) with
  | some x =>
    have hx1 := List.mem_of_find?_eq_some hfd1
    have hxt := List.find?_some hfd1
    rw [finalAt_eq_some hfd1]
    have hex2 : ∃ z ∈ l2, (copiedB fs ws z && decide (tgtOf fs ws dest z = q)) = true :=
      ⟨x, (hmem x).mp hx1, hxt⟩
    obtain ⟨y, hfd2⟩ := Option.isSome_iff_exists.mp (List.find?_isSome.mpr hex2)
    rw [finalAt_eq_some hfd2]
    have hy2 := List.mem_of_find?_eq_some hfd2
    have hyt := List.find?_some hfd2
    simp only [Bool.and_eq_true, decide_eq_true_eq] at hxt hyt
    have hxy : x = y := tgt_inj hwf (hg1 x hx1).1 (hg1 x hx1).2 (hg2 y hy2).1 (hg2 y hy2).2
      (hok1 x hx1 hxt.1).1 (hok2 y hy2 hyt.1).1 (hxt.2.trans hyt.2.symm)
    rw [hxy]
  | none =>
    have hfd2 : l2.find?
        (fun x => copiedB fs ws x && decide (tgtOf fs ws dest x = q)) = none := by
      apply List.find?_eq_none.mpr
      intro x hx
      exact List.find?_eq_none.mp hfd1 x ((hmem x).mpr hx)
    rw [finalAt_eq_none hfd1, finalAt_eq_none hfd2]
    have hanyeq : (l1.any fun x => copiedB fs ws x && decide (q ∈ chainOf dest x)) =
        (l2.any fun x => copiedB fs ws x && decide (q ∈ chainOf dest x)) := by
      by_cases ha : (l2.any fun x => copiedB fs ws x && decide (q ∈ chainOf dest x)) = true
      · rw [ha]
        rw [List.any_eq_true] at ha ⊢
        obtain ⟨x, hx, hfx⟩ := ha
        exact ⟨x, (hmem x).mpr hx, hfx⟩
      · have h1 : ¬ (l1.any fun x => copiedB fs ws x &&
            decide (q ∈ chainOf dest x)) = true := by
          intro hh
          rw [List.any_eq_true] at hh
          obtain ⟨x, hx, hfx⟩ := hh
          exact ha (List.any_eq_true.mpr ⟨x, (hmem x).mp hx, hfx⟩)
        rw [Bool.not_eq_true] at ha h1
        rw [ha, h1]
    rw [hanyeq]

/-- C2, counterexample: a manifest entry whose source path exists as a
directory (hence does not exist as a regular file) does not produce the
'File not found' diagnostic and does not continue to the next entry: the
run raises IsADirectoryError from the attempted copy instead. -/
theorem c2_counterexample :
    isFileN (lookupFS fsDirSource (joinPath workspace_path entryD)) = false ∧
    copy_files_with_structure [entryD] essential_package_path (fsDirSource, []) =
      Except.error (Err.isADirectory (joinPath workspace_path entryD)) := by
  constructor
  · decide
  · rfl

/-- C2, amended: for every manifest entry p such that source_root/p does not
exist at all (no filesystem object), the run emits exactly the diagnostic
line 'File not found: source_root/p', creates nothing (the filesystem is
unchanged for this entry), and continues with the remaining entries. -/
theorem c2_amended (dest : FsPath) (p : FsPath) (rest : List FsPath)
    (fs : FS) (log : List String)
    (habs : lookupFS fs (joinPath workspace_path p) = none) :
    copy_files_with_structure (p :: rest) dest (fs, log) =
      copy_files_with_structure rest dest
        (fs, log ++ [notFoundLine (joinPath workspace_path p)]) := by
  unfold copy_files_with_structure
  rw [copyFilesAux_cons]
  have hcop : copiedB fs workspace_path p = false := by
    unfold copiedB srcOf
    rw [habs]
    rfl
  rw [processOne_skip log hcop]
  rfl

/-- Witness for c2_amended: a concrete missing entry produces exactly the
diagnostic line and processing continues. -/
theorem c2_amended_witness :
    copy_files_with_structure [entryB] essential_package_path (fsSourceOnly, []) =
      copy_files_with_structure [] essential_package_path
        (fsSourceOnly, [] ++ [notFoundLine (joinPath workspace_path entryB)]) :=
  c2_amended essential_package_path entryB [] fsSourceOnly [] (by decide)

/-- C8: a manifest entry whose source path exists as a directory passes the
existence check: no 'File not found' line is printed and the run proceeds to
attempt the directory creation and the copy for it. -/
theorem c8_dir_source (dest : FsPath) (p : FsPath) (rest : List FsPath)
    (fs : FS) (log : List String)
    (hdir : lookupFS fs (joinPath workspace_path p) = some Node.dir) :
    copy_files_with_structure (p :: rest) dest (fs, log) =
      (match makedirs fs (dirname (joinPath dest p)) with
       | Except.error err => Except.error err
       | Except.ok fsI =>
         match copy2 fsI (joinPath workspace_path p) (joinPath dest p) with
         | Except.error err => Except.error err
         | Except.ok fs2 => copy_files_with_structure rest dest (fs2, log)) := by
  unfold copy_files_with_structure
  rw [copyFilesAux_cons]
  have hcop : (lookupFS fs (joinPath workspace_path p)).isSome = true := by
    rw [hdir]
    rfl
  unfold processOne
  simp only [hcop, if_true]
  cases hmk : makedirs fs (dirname (joinPath dest p)) with
  | error err => simp only [hmk]
  | ok fsI =>
    simp only [hmk]
    cases hcp : copy2 fsI (joinPath workspace_path p) (joinPath dest p) with
    | error err => simp only [hcp]
    | ok fs2 => simp only [hcp]

/-- Witness for c8_dir_source at a concrete directory source. -/
theorem c8_dir_source_witness :
    copy_files_with_structure [entryD] essential_package_path (fsDirSource, []) =
      (match makedirs fsDirSource (dirname (joinPath essential_package_path entryD)) with
       | Except.error err => Except.error err
       | Except.ok fsI =>
         match copy2 fsI (joinPath workspace_path entryD)
             (joinPath essential_package_path entryD) with
         | Except.error err => Except.error err
         | Except.ok fs2 => copy_files_with_structure [] essential_package_path (fs2, [])) := by
  exact c8_dir_source essential_package_path entryD [] fsDirSource [] (by decide)

/-- C9, counterexample: for an absolute manifest entry existing as a regular
file, os.path.join discards both roots so source and destination coincide,
and the run raises SameFileError instead of writing to that absolute path. -/
theorem c9_counterexample :
    joinPath workspace_path entryAbs = entryAbs ∧
    joinPath essential_package_path entryAbs = entryAbs ∧
    copy_files_with_structure [entryAbs] essential_package_path (fsAbs, []) =
      Except.error (Err.sameFile entryAbs) := by
  refine ⟨by decide, by decide, rfl⟩

/-- C9, amended: for an absolute manifest entry p, os.path.join discards the
configured roots, so both the source and the destination resolve to p itself;
if p exists as a regular file the entry's processing attempts the parent
directory creation and then shutil.copy2 raises SameFileError — no copy to
(or from) the configured roots occurs, so the 'writes only under the
destination root' guarantee holds only for relative entries. -/
theorem c9_amended (dest : FsPath) (p : FsPath) (fs : FS) (log : List String)
    (c : List Nat) (m pm : Nat)
    (habs : p.absolute = true)
    (hfile : lookupFS fs p = some (Node.file c m pm)) :
    joinPath workspace_path p = p ∧ joinPath dest p = p ∧
    processOne workspace_path dest (fs, log) p =
      (match makedirs fs (dirname p) with
       | Except.error err => Except.error err
       | Except.ok fsI => Except.error (Err.sameFile p)) := by
  have hj : ∀ r : FsPath, joinPath r p = p := by
    intro r
    unfold joinPath
    rw [habs]
    simp
  refine ⟨hj _, hj _, ?_⟩
  unfold processOne
  rw [hj workspace_path, hj dest]
  have hcop : (lookupFS fs p).isSome = true := by
    rw [hfile]
    rfl
  simp only [hcop, if_true]
  cases hmk : makedirs fs (dirname p) with
  | error err => simp only [hmk]
  | ok fsI =>
    simp only [hmk]
    have hchainInv := mkdirsList_ok_inv (pathAncestors (dirname p)) fs fsI hmk
    have hpnot : p ∉ pathAncestors (dirname p) := by
      intro hmem
      have hfalse := hchainInv p hmem
      rw [hfile] at hfalse
      simp [isFileN] at hfalse
    obtain ⟨fsI', heq1, hchar1⟩ := mkdirsList_ok (pathAncestors (dirname p)) fs hchainInv
    have hfsI : fsI' = fsI := by
      have h2 : (Except.ok fsI' : Except Err FS) = Except.ok fsI := heq1.symm.trans hmk
      simpa using h2
    subst hfsI
    have hlp : lookupFS fsI' p = some (Node.file c m pm) := by
      rw [hchar1 p, if_neg (fun hh => hpnot hh.1)]
      exact hfile
    have hcp : copy2 fsI' p p = Except.error (Err.sameFile p) := by
      unfold copy2
      have hrt : redirTgt fsI' p p = p := by
        unfold redirTgt
        rw [hlp]
        simp
      rw [hrt]
      rw [if_pos ⟨rfl, by rw [hlp]; rfl⟩]
    simp only [hcp]

/-- Witness for c9_amended at a concrete absolute entry. -/
theorem c9_amended_witness :
    joinPath workspace_path entryAbs = entryAbs ∧
    joinPath essential_package_path entryAbs = entryAbs ∧
    processOne workspace_path essential_package_path (fsAbs, []) entryAbs =
      (match makedirs fsAbs (dirname entryAbs) with
       | Except.error err => Except.error err
       | Except.ok fsI => Except.error (Err.sameFile entryAbs)) :=
  c9_amended essential_package_path entryAbs fsAbs [] [2] 3 4 (by decide) (by decide)

/-- C4: an exception raised by directory creation or by the copy of one entry
is not caught: the loop returns that error, the remaining entries are not
processed, and the driver propagates it, so the completion message is never
printed (the run terminates abnormally). -/
theorem c4_propagate (dest : FsPath) (l1 l2 : List FsPath) (e : FsPath)
    (st st1 : FS × List String) (err : Err)
    (h1 : copy_files_with_structure l1 dest st = Except.ok st1)
    (hcop : copiedB st1.1 workspace_path e = true)
    (h2 : makedirs st1.1 (dirname (joinPath dest e)) = Except.error err ∨
      (∃ fsI, makedirs st1.1 (dirname (joinPath dest e)) = Except.ok fsI ∧
        copy2 fsI (joinPath workspace_path e) (joinPath dest e) = Except.error err)) :
    copy_files_with_structure (l1 ++ e :: l2) dest st = Except.error err ∧
    (∀ fs, copy_files_with_structure essential_files essential_package_path (fs, []) =
        Except.error err → run_script fs = Except.error err) ∧
    (∀ fs stE, copy_files_with_structure essential_files essential_package_path (fs, []) =
        Except.ok stE →
      copy_files_with_structure bonus_files bonus_package_path stE = Except.error err →
      run_script fs = Except.error err) := by
  refine ⟨?_, ?_, ?_⟩
  · unfold copy_files_with_structure at h1 ⊢
    rw [copyFilesAux_append workspace_path dest l1 (e :: l2) st]
    simp only [h1]
    obtain ⟨stfs, stlog⟩ := st1
    rw [copyFilesAux_cons]
    have hcop' : (lookupFS stfs (joinPath workspace_path e)).isSome = true := hcop
    have hpo : processOne workspace_path dest (stfs, stlog) e = Except.error err := by
      unfold processOne
      simp only [hcop', if_true]
      rcases h2 with hmk | ⟨fsI, hmk, hcp⟩
      · simp only [hmk]
      · simp only [hmk, hcp]
    simp only [hpo]
  · intro fs hE
    unfold run_script
    simp only [hE]
  · intro fs stE hE hB
    unfold run_script
    simp only [hE, hB]

/-- Witness for c4_propagate: a directory source makes copy2 raise, the loop
stops with that error. -/
theorem c4_propagate_witness :
    copy_files_with_structure ([] ++ entryD :: []) essential_package_path
      (fsDirSource, []) =
      Except.error (Err.isADirectory (joinPath workspace_path entryD)) := by
  have h2 : makedirs fsDirSource (dirname (joinPath essential_package_path entryD)) =
      Except.error (Err.isADirectory (joinPath workspace_path entryD)) ∨
      (∃ fsI, makedirs fsDirSource (dirname (joinPath essential_package_path entryD)) =
        Except.ok fsI ∧ copy2 fsI (joinPath workspace_path entryD)
          (joinPath essential_package_path entryD) =
          Except.error (Err.isADirectory (joinPath workspace_path entryD))) := by
    right
    exact ⟨_, rfl, rfl⟩
  exact (c4_propagate essential_package_path [] [] entryD (fsDirSource, [])
    (fsDirSource, []) _ rfl (by decide) h2).1

/-- C1, counterexample: a source file whose destination path is a pre-existing
directory is redirected by shutil.copy2 into that directory; the run completes
without error yet destination_root/p is still a directory, not a byte-identical
copy of source_root/p. -/
theorem c1_counterexample :
    lookupFS fsDirAtDest (joinPath workspace_path entryA) = some (Node.file [1] 5 6) ∧
    (∃ r, copy_files_with_structure [entryA] essential_package_path (fsDirAtDest, []) =
      Except.ok r ∧ lookupFS r.1 (joinPath essential_package_path entryA) = some Node.dir) := by
  refine ⟨by decide, ⟨_, rfl, by decide⟩⟩

/-- C1, amended: for every relative manifest entry p whose source exists as a
regular file, provided no directory sits at destination_root/p beforehand and
the run completes without exception (on a well-formed filesystem with the
source and destination roots not nested in one another), destination_root/p
afterwards holds exactly the source file's bytes, modification time and
permissions. -/
theorem c1_amended (dest : FsPath) (l : List FsPath) (fs fs1 : FS)
    (log log1 : List String) (p : FsPath) (c : List Nat) (m pm : Nat)
    (hg : goodEntries l) (hr : rootsApart workspace_path dest) (hwf : WF fs)
    (hp : p ∈ l)
    (hsrc : lookupFS fs (joinPath workspace_path p) = some (Node.file c m pm))
    (hdst : lookupFS fs (joinPath dest p) ≠ some Node.dir)
    (hrun : copy_files_with_structure l dest (fs, log) = Except.ok (fs1, log1)) :
    lookupFS fs1 (joinPath dest p) = some (Node.file c m pm) := by
  obtain ⟨hok, _, _, hchar⟩ := runB workspace_path dest hr l fs log fs1 log1 hg hwf hrun
  have hc : copiedB fs workspace_path p = true := by
    unfold copiedB srcOf
    rw [hsrc]
    rfl
  have hfP : isFileN (lookupFS fs (srcOf workspace_path p)) = true := by
    show isFileN (lookupFS fs (joinPath workspace_path p)) = true
    rw [hsrc]
    rfl
  have htgt : tgtOf fs workspace_path dest p = dstOf dest p := by
    unfold tgtOf redirTgt
    exact if_neg (show ¬ lookupFS fs (dstOf dest p) = some Node.dir from hdst)
  have hex : ∃ x ∈ l, (copiedB fs workspace_path x &&
      decide (tgtOf fs workspace_path dest x = joinPath dest p)) = true :=
    ⟨p, hp, by rw [hc]; simp [htgt, dstOf]⟩
  obtain ⟨x, hfd⟩ := Option.isSome_iff_exists.mp (List.find?_isSome.mpr hex)
  rw [hchar (joinPath dest p), finalAt_eq_some hfd]
  have hxmem := List.mem_of_find?_eq_some hfd
  have hxt := List.find?_some hfd
  simp only [Bool.and_eq_true, decide_eq_true_eq] at hxt
  have hxp : x = p := tgt_inj hwf (hg x hxmem).1 (hg x hxmem).2 (hg p hp).1 (hg p hp).2
    (hok x hxmem hxt.1).1 hfP (hxt.2.trans htgt.symm)
  rw [hxp]
  show lookupFS fs (joinPath workspace_path p) = some (Node.file c m pm)
  exact hsrc

/-- Witness for c1_amended at a concrete filesystem. -/
theorem c1_amended_witness :
    ∃ fs1 log1, copy_files_with_structure [entryA] essential_package_path
        (fsSourceOnly, []) = Except.ok (fs1, log1) ∧
      lookupFS fs1 (joinPath essential_package_path entryA) = some (Node.file [1] 5 6) := by
  refine ⟨_, _, rfl, ?_⟩
  exact c1_amended essential_package_path [entryA] fsSourceOnly _ [] _ entryA [1] 5 6
    (by decide) (by decide) (by decide) (List.mem_singleton.mpr rfl) (by decide)
    (by decide) rfl

/-- C3: running the copier twice with the same manifest (of relative entries),
source root and destination root raises no error on the second run, prints the
same diagnostics, and leaves the filesystem exactly as after the first run. -/
theorem c3_idempotent (dest : FsPath) (l : List FsPath) (fs fs1 : FS) (log1 : List String)
    (hg : goodEntries l) (hr : rootsApart workspace_path dest) (hwf : WF fs)
    (h1 : copy_files_with_structure l dest (fs, []) = Except.ok (fs1, log1)) :
    ∃ fs2, copy_files_with_structure l dest (fs1, []) = Except.ok (fs2, log1) ∧
      ∀ q, lookupFS fs2 q = lookupFS fs1 q := by
  obtain ⟨hok, hlog, hwf1, hchar⟩ := runB workspace_path dest hr l fs [] fs1 log1 hg hwf h1
  have hok1 : OKC fs1 workspace_path dest l := OKC_final hr hg hwf hok hchar
  obtain ⟨fs2, h2, hwf2, hchar2⟩ := runA workspace_path dest hr l fs1 [] hg hwf1 hok1
  refine ⟨fs2, ?_, ?_⟩
  · show copyFilesAux workspace_path dest l (fs1, []) = Except.ok (fs2, log1)
    rw [h2]
    have hlogs : logsOf fs1 workspace_path l = logsOf fs workspace_path l :=
      logsOf_congr (final_copied_stable hr hg hchar)
    rw [hlogs, hlog]
  · intro q
    rw [hchar2 q, finalAt_fixpoint hr hg hwf hok hchar q]

/-- Witness for c3_idempotent at a concrete filesystem. -/
theorem c3_idempotent_witness :
    ∃ fs1 log1, copy_files_with_structure [entryA] essential_package_path (fsSourceOnly, [])
        = Except.ok (fs1, log1) ∧
      ∃ fs2, copy_files_with_structure [entryA] essential_package_path (fs1, []) =
        Except.ok (fs2, log1) ∧ ∀ q, lookupFS fs2 q = lookupFS fs1 q := by
  refine ⟨_, _, rfl, ?_⟩
  exact c3_idempotent essential_package_path [entryA] fsSourceOnly _ _
    (by decide) (by decide) (by decide) rfl

/-- C5, counterexample: with the destination tree initially absent, a run
creates the missing ancestor directories of the destination root (here
c:/ARPG Stats System), a filesystem write that does not land under the
destination root. -/
theorem c5_counterexample :
    ∃ r, copy_files_with_structure [entryA] essential_package_path (fsSourceOnly, []) =
      Except.ok r ∧
      lookupFS fsSourceOnly ⟨true, ["c:", "ARPG Stats System"]⟩ = none ∧
      lookupFS r.1 ⟨true, ["c:", "ARPG Stats System"]⟩ = some Node.dir ∧
      ¬ pathLe essential_package_path ⟨true, ["c:", "ARPG Stats System"]⟩ := by
  refine ⟨_, rfl, by decide, by decide, by decide⟩

/-- C5, amended: for relative manifest entries, every filesystem change of a
completed run lands at or below the destination root, or creates a previously
missing ancestor directory of it; in particular nothing at or under the source
root is modified, copying to the essential root never writes into the bonus
root, and copying to the bonus root never writes into the essential root. -/
theorem c5_amended (dest : FsPath) (l : List FsPath) (fs fs1 : FS) (log log1 : List String)
    (hg : ∀ p ∈ l, p.absolute = false)
    (hrun : copy_files_with_structure l dest (fs, log) = Except.ok (fs1, log1)) :
    (∀ q, lookupFS fs1 q ≠ lookupFS fs q →
      pathLe dest q ∨ (pathLe q dest ∧ lookupFS fs q = none ∧
        lookupFS fs1 q = some Node.dir)) ∧
    (rootsApart workspace_path dest →
      ∀ q, pathLe workspace_path q → lookupFS fs1 q = lookupFS fs q) ∧
    (dest = essential_package_path →
      ∀ q, pathLe bonus_package_path q → lookupFS fs1 q = lookupFS fs q) ∧
    (dest = bonus_package_path →
      ∀ q, pathLe essential_package_path q → lookupFS fs1 q = lookupFS fs q) := by
  have hframe := copyFilesAux_frame workspace_path dest l fs log fs1 log1 hg hrun
  refine ⟨hframe, ?_, ?_, ?_⟩
  · intro hr q hq
    by_contra hne
    rcases hframe q hne with h1 | h1
    · exact rootsApart_not_both hr hq h1
    · exact rootsApart_not_between hr hq h1.1
  · intro hdest q hq
    subst hdest
    by_contra hne
    rcases hframe q hne with h1 | h1
    · rcases pathLe_or_of_pathLe h1 hq with hcmp | hcmp
      · exact absurd hcmp (by decide)
      · exact absurd hcmp (by decide)
    · exact absurd (pathLe_trans hq h1.1) (by decide)
  · intro hdest q hq
    subst hdest
    by_contra hne
    rcases hframe q hne with h1 | h1
    · rcases pathLe_or_of_pathLe h1 hq with hcmp | hcmp
      · exact absurd hcmp (by decide)
      · exact absurd hcmp (by decide)
    · exact absurd (pathLe_trans hq h1.1) (by decide)

/-- Witness for c5_amended: a concrete run leaves the source subtree
untouched. -/
theorem c5_amended_witness :
    ∃ fs1 log1, copy_files_with_structure [entryA] essential_package_path
        (fsSourceOnly, []) = Except.ok (fs1, log1) ∧
      ∀ q, pathLe workspace_path q → lookupFS fs1 q = lookupFS fsSourceOnly q := by
  refine ⟨_, _, rfl, ?_⟩
  exact (c5_amended essential_package_path [entryA] fsSourceOnly _ [] _
    (by decide) rfl).2.1 (by decide)

/-- C6: the driver runs the copier on the essential manifest first and the
bonus manifest second; when both invocations finish without an exception the
completion line is printed exactly once, after all copy attempts of both
manifests (it is the last output line). -/
theorem c6_driver (fs fs2 : FS) (out : List String)
    (h : run_script fs = Except.ok (fs2, out)) :
    ∃ st1 stB, copy_files_with_structure essential_files essential_package_path (fs, []) =
        Except.ok st1 ∧
      copy_files_with_structure bonus_files bonus_package_path st1 = Except.ok stB ∧
      fs2 = stB.1 ∧ out = stB.2 ++ [completionLine] ∧
      List.count completionLine out = 1 ∧ out.getLast? = some completionLine := by
  unfold run_script at h
  cases hE : copy_files_with_structure essential_files essential_package_path (fs, []) with
  | error err =>
    rw [hE] at h
    simp at h
  | ok st1 =>
    obtain ⟨st1f, st1l⟩ := st1
    rw [hE] at h
    simp only [] at h
    cases hB : copy_files_with_structure bonus_files bonus_package_path (st1f, st1l) with
    | error err =>
      rw [hB] at h
      simp at h
    | ok stB =>
      obtain ⟨stBf, stBl⟩ := stB
      rw [hB] at h
      replace h : (Except.ok (stBf, stBl ++ [completionLine]) :
        Except Err (FS × List String)) = Except.ok (fs2, out) := h
      simp only [Except.ok.injEq, Prod.mk.injEq] at h
      obtain ⟨e1, he1, hs1⟩ := copyFilesAux_log_shape workspace_path essential_package_path
        essential_files fs [] st1f st1l hE
      obtain ⟨e2, he2, hs2⟩ := copyFilesAux_log_shape workspace_path bonus_package_path
        bonus_files st1f st1l stBf stBl hB
      have hnot : completionLine ∉ stBl := by
        rw [he2, he1]
        intro hmem
        simp only [List.mem_append] at hmem
        rcases hmem with (hmem | hmem) | hmem
        · simp at hmem
        · obtain ⟨pp, hpp⟩ := hs1 _ hmem
          exact notFoundLine_ne_completion pp hpp.symm
        · obtain ⟨pp, hpp⟩ := hs2 _ hmem
          exact notFoundLine_ne_completion pp hpp.symm
      refine ⟨(st1f, st1l), (stBf, stBl), rfl, hB, h.1.symm, h.2.symm, ?_, ?_⟩
      · rw [← h.2, List.count_append, List.count_eq_zero.mpr hnot]
        simp
      · rw [← h.2]
        exact List.getLast?_concat _

/-- Witness for c6_driver on the empty filesystem (all sources missing, both
runs complete, the completion line is printed once at the end). -/
theorem c6_driver_witness :
    ∃ fs2 out, run_script [] = Except.ok (fs2, out) ∧
      List.count completionLine out = 1 ∧ out.getLast? = some completionLine := by
  have h := c6_driver [] _ _ rfl
  obtain ⟨st1, stB, h1, h2, h3, h4, h5, h6⟩ := h
  exact ⟨_, _, rfl, h5, h6⟩

/-- C7: for two manifests of distinct relative entries that are permutations
of each other, a completed run of either produces the same final filesystem
state; order affects only the printed diagnostics. -/
theorem c7_perm (dest : FsPath) (m1 m2 : List FsPath) (fs fs1 : FS) (log1 : List String)
    (hg : goodEntries m1) (hr : rootsApart workspace_path dest) (hwf : WF fs)
    (hnd : m1.Nodup) (hperm : m1.Perm m2)
    (h1 : copy_files_with_structure m1 dest (fs, []) = Except.ok (fs1, log1)) :
    ∃ fs2 log2, copy_files_with_structure m2 dest (fs, []) = Except.ok (fs2, log2) ∧
      ∀ q, lookupFS fs2 q = lookupFS fs1 q := by
  have hmem : ∀ p, p ∈ m1 ↔ p ∈ m2 := fun p => hperm.mem_iff
  have hg2 : goodEntries m2 := fun p hp => hg p ((hmem p).mpr hp)
  obtain ⟨hok1, _, _, hchar1⟩ := runB workspace_path dest hr m1 fs [] fs1 log1 hg hwf h1
  have hok2 : OKC fs workspace_path dest m2 := fun p hp hc => hok1 p ((hmem p).mpr hp) hc
  obtain ⟨fs2, h2, hwf2, hchar2⟩ := runA workspace_path dest hr m2 fs [] hg2 hwf hok2
  refine ⟨fs2, _, h2, ?_⟩
  intro q
  rw [hchar2 q, hchar1 q]
  exact (finalAt_members hwf hg hg2 hok1 hok2 hmem q).symm

/-- Witness for c7_perm on a two-entry manifest and its reversal. -/
theorem c7_perm_witness :
    ∃ fs1 log1, copy_files_with_structure [entryA, entryB] essential_package_path
        (fsSourceAB, []) = Except.ok (fs1, log1) ∧
      ∃ fs2 log2, copy_files_with_structure [entryB, entryA] essential_package_path
        (fsSourceAB, []) = Except.ok (fs2, log2) ∧
      ∀ q, lookupFS fs2 q = lookupFS fs1 q := by
  refine ⟨_, _, rfl, ?_⟩
  exact c7_perm essential_package_path [entryA, entryB] [entryB, entryA] fsSourceAB _ _
    (by decide) (by decide) (by decide) (by decide) (by decide) rfl

/-- C10: when the same relative path occurs twice in a manifest, the second
occurrence overwrites the first with the same source content, and a completed
run produces the same final filesystem state as the manifest with that path
listed once. -/
theorem c10_dup (dest : FsPath) (l1 l2 l3 : List FsPath) (p : FsPath)
    (fs fs1 : FS) (log1 : List String)
    (hg : goodEntries (l1 ++ (p :: (l2 ++ (p :: l3)))))
    (hr : rootsApart workspace_path dest) (hwf : WF fs)
    (h1 : copy_files_with_structure (l1 ++ (p :: (l2 ++ (p :: l3)))) dest (fs, []) =
      Except.ok (fs1, log1)) :
    ∃ fs2 log2, copy_files_with_structure (l1 ++ (p :: (l2 ++ l3))) dest (fs, []) =
      Except.ok (fs2, log2) ∧ ∀ q, lookupFS fs2 q = lookupFS fs1 q := by
  have hmem : ∀ x, x ∈ (l1 ++ (p :: (l2 ++ (p :: l3)))) ↔
      x ∈ (l1 ++ (p :: (l2 ++ l3))) := by
    intro x
    simp only [List.mem_append, List.mem_cons]
    tauto
  have hg2 : goodEntries (l1 ++ (p :: (l2 ++ l3))) := fun x hx => hg x ((hmem x).mpr hx)
  obtain ⟨hok1, _, _, hchar1⟩ := runB workspace_path dest hr _ fs [] fs1 log1 hg hwf h1
  have hok2 : OKC fs workspace_path dest (l1 ++ (p :: (l2 ++ l3))) :=
    fun x hx hc => hok1 x ((hmem x).mpr hx) hc
  obtain ⟨fs2, h2, hwf2, hchar2⟩ := runA workspace_path dest hr _ fs [] hg2 hwf hok2
  refine ⟨fs2, _, h2, ?_⟩
  intro q
  rw [hchar2 q, hchar1 q]
  exact (finalAt_members hwf hg hg2 hok1 hok2 hmem q).symm

/-- Witness for c10_dup on a manifest listing the same entry twice. -/
theorem c10_dup_witness :
    ∃ fs1 log1, copy_files_with_structure [entryA, entryA] essential_package_path
        (fsSourceOnly, []) = Except.ok (fs1, log1) ∧
      ∃ fs2 log2, copy_files_with_structure [entryA] essential_package_path
        (fsSourceOnly, []) = Except.ok (fs2, log2) ∧
      ∀ q, lookupFS fs2 q = lookupFS fs1 q := by
  refine ⟨_, _, rfl, ?_⟩
  exact c10_dup essential_package_path [] [] [] entryA fsSourceOnly _ _
    (by decide) (by decide) (by decide) rfl
